import Mathlib

/-!
# Verification of the math-expression core of `react-inline-calc`

Shallow embedding of `src/detectMath.ts`: the tokenizer, the evaluator
(`evaluateTokens` with `collapseOps`), the scanner (`findAllExpressions`,
hand-compiling the `MATH_REGEX` backtracking semantics into a deterministic
matcher), and the two selectors (`detectMathExpression`,
`detectMathExpressionAtCursor`).

Modelling conventions:
* JavaScript strings are `List Char`.
* JavaScript numbers are exact rationals extended with the IEEE special
  values `Infinity`, `-Infinity` and `NaN`; a finite value whose magnitude
  reaches `2 ^ 1024` overflows to a signed infinity, as in double precision.
  In-range arithmetic is taken exact (all claims under scrutiny only involve
  values on which double arithmetic is exact, or values far beyond the
  overflow threshold).
* Loops that advance a scan index are given an explicit fuel argument equal
  to the number of remaining characters (each iteration consumes at least
  one character, so the fuel never runs out); this keeps those functions
  structurally recursive and hence evaluable by the kernel on the large
  concrete inputs appearing in the test suite.  The evaluator cluster is
  defined by well-founded recursion on the token-list length, exactly
  mirroring the source's termination argument.
-/

unseal Rat.add Rat.mul Rat.sub Rat.inv

set_option maxRecDepth 16000

namespace DetectMath

/-- A JavaScript number: an exact rational for a finite double, or one of
the special values `Infinity`, `-Infinity`, `NaN`. -/
inductive JsNum where
  | fin (q : ℚ)
  | inf
  | negInf
  | nan
deriving DecidableEq, Repr

/-- The double-precision overflow threshold: finite results of magnitude
at least `2 ^ 1024` become a signed infinity. -/
def dblLimit : ℚ := ((2 ^ 1024 : ℕ) : ℚ)

/-- Inject an exact rational into `JsNum`, overflowing to a signed infinity
at the double-precision range boundary. -/
def jsOfRat (q : ℚ) : JsNum :=
  if dblLimit ≤ q then JsNum.inf
  else if q ≤ -dblLimit then JsNum.negInf
  else JsNum.fin q

/-- IEEE negation. -/
def JsNum.neg : JsNum → JsNum
  | fin q => fin (-q)
  | inf => negInf
  | negInf => inf
  | nan => nan

/-- IEEE addition (exact on in-range finite values). -/
def JsNum.add : JsNum → JsNum → JsNum
  | nan, _ => nan
  | _, nan => nan
  | inf, negInf => nan
  | negInf, inf => nan
  | inf, _ => inf
  | _, inf => inf
  | negInf, _ => negInf
  | _, negInf => negInf
  | fin a, fin b => jsOfRat (a + b)

/-- IEEE subtraction, i.e. addition of the negation. -/
def JsNum.sub (a b : JsNum) : JsNum := a.add b.neg

/-- IEEE multiplication (exact on in-range finite values). -/
def JsNum.mul : JsNum → JsNum → JsNum
  | nan, _ => nan
  | _, nan => nan
  | inf, inf => inf
  | inf, negInf => negInf
  | negInf, inf => negInf
  | negInf, negInf => inf
  | inf, fin b => if 0 < b then inf else if b < 0 then negInf else nan
  | fin a, inf => if 0 < a then inf else if a < 0 then negInf else nan
  | negInf, fin b => if 0 < b then negInf else if b < 0 then inf else nan
  | fin a, negInf => if 0 < a then negInf else if a < 0 then inf else nan
  | fin a, fin b => jsOfRat (a * b)

/-- IEEE division (exact on in-range finite values).  The division-by-zero
case is present for totality only: the source guards `b === 0` before ever
dividing (see `applyOp`). -/
def JsNum.div : JsNum → JsNum → JsNum
  | nan, _ => nan
  | _, nan => nan
  | inf, inf => nan
  | inf, negInf => nan
  | negInf, inf => nan
  | negInf, negInf => nan
  | inf, fin b => if 0 ≤ b then inf else negInf
  | negInf, fin b => if 0 ≤ b then negInf else inf
  | fin _, inf => fin 0
  | fin _, negInf => fin 0
  | fin a, fin b =>
    if b = 0 then (if 0 < a then inf else if a < 0 then negInf else nan)
    else jsOfRat (a / b)

/-- `Number.isInteger`: true exactly for finite mathematical integers. -/
def JsNum.isInteger : JsNum → Bool
  | fin q => q.den == 1
  | _ => false

/-- `parseFloat(x.toFixed(6))` on a finite value: round to six decimal
places, ties to the larger candidate, as `Number.prototype.toFixed`
specifies on the exact value. -/
def roundTo6 (q : ℚ) : ℚ := (round (q * 1000000) : ℤ) / 1000000

/-- The result normalisation of `findAllExpressions` (detectMath.ts lines
166-168): integer-valued results are kept as they are, all others go
through `toFixed(6)` and `parseFloat` (which fix non-finite values). -/
def formatNumber (v : JsNum) : JsNum :=
  if v.isInteger then v
  else
    match v with
    | JsNum.fin q => JsNum.fin (roundTo6 q)
    | x => x

/-- A token of `tokenize`: a number, or a single-character string token
(`"+"`, `"-"`, `"*"`, `"/"`, `"("`, `")"`). -/
inductive Tok where
  | num (v : JsNum)
  | op (c : Char)
deriving DecidableEq, Repr

/-- The character test `ch >= "0" && ch <= "9"` of the source. -/
def isDigit09 (c : Char) : Bool := '0' ≤ c && c ≤ '9'

/-- The inner number-literal loop of `tokenize` (detectMath.ts lines
48-56): consume digits, `.` and `,`; commas are skipped silently; a second
`.` in one literal is a hard failure (`none`, the source's `return []`).
Returns the accumulated literal text and the unconsumed remainder. -/
def scanNum : List Char → Bool → List Char → Option (List Char × List Char)
  | [], _, acc => some (acc, [])
  | c :: rest, hasDecimal, acc =>
    if c = ',' then scanNum rest hasDecimal acc
    else if isDigit09 c then scanNum rest hasDecimal (acc ++ [c])
    else if c = '.' then
      if hasDecimal then none
      else scanNum rest true (acc ++ [c])
    else some (acc, c :: rest)

/-- Numeric value of a digit string. -/
def digitsToNat (ds : List Char) : Nat :=
  ds.foldl (fun a c => 10 * a + (c.toNat - '0'.toNat)) 0

/-- JavaScript `parseFloat` on the literal texts produced by `tokenize`:
an optional sign, integer digits, an optional fraction.  If no digit is
present at all the result is `NaN`; a value beyond the double range
overflows to a signed infinity. -/
def parseFloat (s : List Char) : JsNum :=
  let neg : Bool := match s with | '-' :: _ => true | _ => false
  let s1 : List Char := match s with | '-' :: t => t | _ => s
  let intPart := s1.takeWhile isDigit09
  let s2 := s1.dropWhile isDigit09
  let fracPart : List Char :=
    match s2 with
    | '.' :: t => t.takeWhile isDigit09
    | _ => []
  if intPart.isEmpty && fracPart.isEmpty then JsNum.nan
  else
    let mag : ℚ :=
      (digitsToNat intPart : ℚ) + (digitsToNat fracPart : ℚ) / ((10 ^ fracPart.length : ℕ) : ℚ)
    jsOfRat (if neg then -mag else mag)

/-- The keys of the source's `OPS` record. -/
def opsKeys : List Char := ['*', '/', '+', '-']

/-- The keys of the source's `OPERATORS` record (alternate multiplication
glyphs). -/
def operatorsKeys : List Char := ['x', '×']

/-- `OPERATORS[ch] || ch`: normalise `x` and `×` to `*`. -/
def normOp (c : Char) : Char := if c = 'x' ∨ c = '×' then '*' else c

/-- `typeof tokens[last] === "string" && tokens[last] !== ")"`: the most
recently pushed token is a string token other than `")"`. -/
def lastIsOpenish (toks : List Tok) : Bool :=
  match toks.getLast? with
  | some (Tok.op c) => c != ')'
  | _ => false

/-- The `isNegative` test of `tokenize` (detectMath.ts lines 41-43) for a
`-` whose unconsumed successors are `rest`: no token emitted yet or the
last token is a string other than `")"`, and a next character exists and
is not `"("`. -/
def minusIsUnary (toks : List Tok) (rest : List Char) : Bool :=
  (toks.isEmpty || lastIsOpenish toks) &&
    (match rest with
     | c2 :: _ => c2 != '('
     | [] => false)

theorem scanNum_rest_length (l : List Char) : ∀ (hd : Bool) (acc n r : List Char),
    scanNum l hd acc = some (n, r) → r.length ≤ l.length := by
  induction l with
  | nil =>
    intro hd acc n r h
    simp only [scanNum, Option.some.injEq, Prod.mk.injEq] at h
    simp [← h.2]
  | cons c rest ih =>
    intro hd acc n r h
    simp only [scanNum] at h
    split at h
    · exact le_trans (ih _ _ _ _ h) (by simp)
    · split at h
      · exact le_trans (ih _ _ _ _ h) (by simp)
      · split at h
        · split at h
          · exact absurd h (by simp)
          · exact le_trans (ih _ _ _ _ h) (by simp)
        · simp only [Option.some.injEq, Prod.mk.injEq] at h
          simp [← h.2]

/-- The main loop of `tokenize` (detectMath.ts lines 32-69).  The `fuel`
argument makes the recursion structural; every iteration consumes at least
one character, so fuel equal to the number of characters always suffices
(the fuel-exhausted arm is unreachable from `tokenize`). -/
def tokenizeGo : Nat → List Char → List Tok → List Tok
  | _, [], toks => toks
  | 0, _ :: _, _ => []
  | fuel + 1, c :: rest, toks =>
    if c = ' ' ∨ c = '\t' then tokenizeGo fuel rest toks
    else if c = '(' ∨ c = ')' then tokenizeGo fuel rest (toks ++ [Tok.op c])
    else if isDigit09 c || c = '.' then
      match scanNum (c :: rest) false [] with
      | none => []
      | some (numStr, rest2) => tokenizeGo fuel rest2 (toks ++ [Tok.num (parseFloat numStr)])
    else if c = '-' && minusIsUnary toks rest then
      match scanNum rest false ['-'] with
      | none => []
      | some (numStr, rest2) => tokenizeGo fuel rest2 (toks ++ [Tok.num (parseFloat numStr)])
    else if c ∈ opsKeys ∨ c ∈ operatorsKeys then
      tokenizeGo fuel rest (toks ++ [Tok.op (normOp c)])
    else tokenizeGo fuel rest toks

/-- `tokenize` (detectMath.ts lines 28-72). -/
def tokenize (expr : List Char) : List Tok := tokenizeGo expr.length expr []

/-- Character-list view of a string literal. -/
def chars (s : String) : List Char := s.data

example : tokenize (chars "10+5*2") =
    [Tok.num (JsNum.fin 10), Tok.op '+', Tok.num (JsNum.fin 5), Tok.op '*',
     Tok.num (JsNum.fin 2)] := by decide

example : tokenize (chars "12,738+100") =
    [Tok.num (JsNum.fin 12738), Tok.op '+', Tok.num (JsNum.fin 100)] := by decide

example : tokenize (chars "1.2.3") = [] := by decide

example : tokenize (chars "-5+10") =
    [Tok.num (JsNum.fin (-5)), Tok.op '+', Tok.num (JsNum.fin 10)] := by decide

example : tokenize (chars "10*-2") =
    [Tok.num (JsNum.fin 10), Tok.op '*', Tok.num (JsNum.fin (-2))] := by decide

example : tokenize (chars "5-(3+2)") =
    [Tok.num (JsNum.fin 5), Tok.op '-', Tok.op '(', Tok.num (JsNum.fin 3),
     Tok.op '+', Tok.num (JsNum.fin 2), Tok.op ')'] := by decide

example : tokenize (chars "3×4") =
    [Tok.num (JsNum.fin 3), Tok.op '*', Tok.num (JsNum.fin 4)] := by decide

/-- `OPS[token](left, right)` (detectMath.ts lines 16-21): the four binary
operators; division returns `null` when the right operand is exactly
zero. -/
def applyOp (c : Char) (a b : JsNum) : Option JsNum :=
  if c = '*' then some (a.mul b)
  else if c = '/' then
    if b = JsNum.fin 0 then none else some (a.div b)
  else if c = '+' then some (a.add b)
  else if c = '-' then some (a.sub b)
  else none

/-- The loop of `collapseOps` (detectMath.ts lines 78-94): scan `work`
from index `i`; at a string token contained in `ops`, both neighbours must
be numbers (an out-of-range neighbour, `undefined` in the source, fails
the check), the operator is applied and the triplet spliced in place with
the scan index unchanged; otherwise the index advances.  Each iteration
either shortens the list by two or advances the index, so
`2 * work.length + 1 - i` bounds the iteration count and the fuel arm is
unreachable from the `collapseOps` wrapper. -/
def collapseOpsF : Nat → List Tok → List Char → Nat → Option (List Tok)
  | 0, _, _, _ => none
  | fuel + 1, work, ops, i =>
    if h : i < work.length then
      match work.get ⟨i, h⟩ with
      | Tok.op c =>
        if c ∈ ops then
          if i = 0 then none
          else
            match work.get? (i - 1), work.get? (i + 1) with
            | some (Tok.num a), some (Tok.num b) =>
              match applyOp c a b with
              | none => none
              | some r =>
                collapseOpsF fuel (work.take (i - 1) ++ Tok.num r :: work.drop (i + 2)) ops i
            | _, _ => none
        else collapseOpsF fuel work ops (i + 1)
      | Tok.num _ => collapseOpsF fuel work ops (i + 1)
    else some work

/-- `collapseOps(work, ops)` (detectMath.ts lines 78-94). -/
def collapseOps (work : List Tok) (ops : List Char) : Option (List Tok) :=
  collapseOpsF (2 * work.length + 1) work ops 0

/-- The parenthesis search of `evaluateTokens` (detectMath.ts lines
117-121): `close` is the index of the first `")"`, `open` the index of the
last `"("` before it; `none` when either is missing. -/
def findParen : List Tok → Nat → Option Nat → Option (Nat × Nat)
  | [], _, _ => none
  | t :: rest, i, openIdx =>
    if t = Tok.op '(' then findParen rest (i + 1) (some i)
    else if t = Tok.op ')' then
      match openIdx with
      | some o => some (o, i)
      | none => none
    else findParen rest (i + 1) openIdx

theorem findParen_bounds (w : List Tok) : ∀ (i : Nat) (a : Option Nat) (o c : Nat),
    (∀ x, a = some x → x < i) → findParen w i a = some (o, c) →
    o < c ∧ i ≤ c ∧ c < i + w.length := by
  induction w with
  | nil => intro i a o c _ h; simp [findParen] at h
  | cons t rest ih =>
    intro i a o c ha h
    simp only [findParen] at h
    split at h
    · have hb := ih (i + 1) (some i) o c
        (by intro x hx; simp only [Option.some.injEq] at hx; omega) h
      simp only [List.length_cons]
      omega
    · split at h
      · cases a with
        | none => simp at h
        | some x =>
          simp only [Option.some.injEq, Prod.mk.injEq] at h
          have hx := ha x rfl
          simp only [List.length_cons]
          omega
      · have hb := ih (i + 1) a o c (fun x hx => Nat.lt_succ_of_lt (ha x hx)) h
        simp only [List.length_cons]
        omega

/-- `work[1] === "(" || typeof work[1] === "number"`: the token after a
leading `"-"` that makes it a unary negation. -/
def headIsParenOrNum (w : List Tok) : Bool :=
  match w.head? with
  | some (Tok.op '(') => true
  | some (Tok.num _) => true
  | _ => false

mutual

/-- The parenthesis-resolution loop of `evaluateTokens` (detectMath.ts
lines 115-127): while a `"("` is present, locate the innermost pair,
recursively evaluate the enclosed slice and splice the value back in
place of the group. -/
def resolveParens (work : List Tok) : Option (List Tok) :=
  if hin : Tok.op '(' ∈ work then
    match hf : findParen work 0 none with
    | none => none
    | some (o, c) =>
      if hoc : c ≤ o then none
      else
        match evaluateTokens ((work.take c).drop (o + 1)) with
        | none => none
        | some v => resolveParens (work.take o ++ Tok.num v :: work.drop (c + 1))
  else some work
termination_by (work.length, 0)
decreasing_by
  · have hb := findParen_bounds work 0 none o c (by intro x hx; cases hx) hf
    have hw : 0 < work.length := List.length_pos.mpr (List.ne_nil_of_mem hin)
    apply Prod.Lex.left
    simp only [List.length_drop, List.length_take]
    omega
  · have hb := findParen_bounds work 0 none o c (by intro x hx; cases hx) hf
    apply Prod.Lex.left
    simp only [List.length_append, List.length_take, List.length_cons, List.length_drop]
    omega

/-- The tail of `evaluateTokens` after the unary-sign handling
(detectMath.ts lines 115-135): resolve parentheses, reject a leftover
`")"`, collapse `*` and `/`, then `+` and `-`, and require a leading
number in what remains. -/
def evalTail (work : List Tok) : Option JsNum :=
  match resolveParens work with
  | none => none
  | some w1 =>
    if Tok.op ')' ∈ w1 then none
    else
      match collapseOps w1 ['*', '/'] with
      | none => none
      | some w2 =>
        match collapseOps w2 ['+', '-'] with
        | none => none
        | some w3 =>
          match w3.head? with
          | some (Tok.num v) => some v
          | _ => none
termination_by (work.length, 1)
decreasing_by
  · apply Prod.Lex.right
    omega

/-- `evaluateTokens` (detectMath.ts lines 100-136). -/
def evaluateTokens (tokens : List Tok) : Option JsNum :=
  match tokens with
  | [] => none
  | [t] =>
    match t with
    | Tok.num v => some v
    | _ => none
  | t :: rest =>
    if t = Tok.op '+' then evalTail rest
    else if t = Tok.op '-' ∧ headIsParenOrNum rest = true then
      (evaluateTokens rest).map JsNum.neg
    else evalTail (t :: rest)
termination_by (tokens.length, 2)
decreasing_by
  · apply Prod.Lex.left
    simp only [List.length_cons]
    omega
  · apply Prod.Lex.left
    simp only [List.length_cons]
    omega
  · apply Prod.Lex.right
    omega

end

/-- On a parenthesis-free token sequence starting with a number (and of
length at least two), `evaluateTokens` is exactly the two collapse passes:
first `*` and `/`, then `+` and `-`, followed by the leading-number
check. -/
theorem evaluateTokens_noParens (v : JsNum) (t2 : Tok) (rest : List Tok)
    (hop : Tok.op '(' ∉ Tok.num v :: t2 :: rest)
    (hcl : Tok.op ')' ∉ Tok.num v :: t2 :: rest) :
    evaluateTokens (Tok.num v :: t2 :: rest) =
      match collapseOps (Tok.num v :: t2 :: rest) ['*', '/'] with
      | none => none
      | some w2 =>
        match collapseOps w2 ['+', '-'] with
        | none => none
        | some w3 =>
          match w3.head? with
          | some (Tok.num r) => some r
          | _ => none := by
  rw [evaluateTokens]
  rw [if_neg (by simp), if_neg (by simp)]
  rw [evalTail]
  rw [resolveParens]
  rw [dif_neg hop]
  simp only [if_neg hcl]
  simp

example : evaluateTokens (tokenize (chars "20/2/2")) = some (JsNum.fin 5) := by
  rw [show tokenize (chars "20/2/2") =
      [Tok.num (JsNum.fin 20), Tok.op '/', Tok.num (JsNum.fin 2), Tok.op '/',
       Tok.num (JsNum.fin 2)] from by decide]
  rw [evaluateTokens_noParens _ _ _ (by decide) (by decide)]
  decide

example : evaluateTokens (tokenize (chars "10+5*2")) = some (JsNum.fin 20) := by
  rw [show tokenize (chars "10+5*2") =
      [Tok.num (JsNum.fin 10), Tok.op '+', Tok.num (JsNum.fin 5), Tok.op '*',
       Tok.num (JsNum.fin 2)] from by decide]
  rw [evaluateTokens_noParens _ _ _ (by decide) (by decide)]
  decide

example : evaluateTokens (tokenize (chars "10/0")) = none := by
  rw [show tokenize (chars "10/0") =
      [Tok.num (JsNum.fin 10), Tok.op '/', Tok.num (JsNum.fin 0)] from by decide]
  rw [evaluateTokens_noParens _ _ _ (by decide) (by decide)]
  decide

/-!
## The scanner

`MATH_REGEX` (detectMath.ts line 140) is

`[+\-*\/x×]\s*\([^)]+\)(?:\s*[+\-*\/x×]\s*\(?[^)]*\)?)*` `|`
`\([^)]+\)(?:\s*[+\-*\/x×]\s*\(?[^)]*\)?)+` `|`
`-?\d[\d,]*(?:\.\d+)?(?:\s*[+\-*\/x×]\s*\(?-?\d[\d,]*(?:\.\d+)?\)?|\s*[+\-*\/x×]\s*\([^)]+\))+`

run with `exec` under the `g` flag.  The functions below hand-compile this
pattern together with the JavaScript backtracking-engine semantics
(leftmost start position, alternatives in order, greedy quantifiers).  In
this particular pattern every quantifier choice is forced — whenever a
greedy sub-matcher commits to a character, backtracking it could never
make the remainder succeed (neighbouring character classes are disjoint),
and the trailing quantifiers have an empty continuation — so the compiled
matcher is deterministic.
-/

/-- JavaScript `\s` (the `RegExp` whitespace class). -/
def isJsWs (c : Char) : Bool :=
  let n := c.toNat
  n == 0x20 || n == 0x9 || n == 0xa || n == 0xb || n == 0xc || n == 0xd ||
  n == 0xa0 || n == 0x1680 || (decide (0x2000 ≤ n) && decide (n ≤ 0x200a)) ||
  n == 0x2028 || n == 0x2029 || n == 0x202f || n == 0x205f ||
  n == 0x3000 || n == 0xfeff

/-- The operator character class `[+\-*\/x×]` of `MATH_REGEX`. -/
def opClassChar (c : Char) : Bool :=
  c == '+' || c == '-' || c == '*' || c == '/' || c == 'x' || c == '×'

/-- `\s*` (greedy; deterministic since no operator is whitespace). -/
def skipWs (s : List Char) : List Char := s.dropWhile isJsWs

/-- A single `[+\-*\/x×]` character. -/
def matchOpChar : List Char → Option (List Char)
  | c :: r => if opClassChar c then some r else none
  | [] => none

/-- The `[^)]` class. -/
def notCloseParen (c : Char) : Bool := c != ')'

/-- `\([^)]+\)`: an opening parenthesis, at least one non-`)` character,
a closing parenthesis. -/
def matchParenGroup : List Char → Option (List Char)
  | '(' :: r =>
    if (r.takeWhile notCloseParen).isEmpty then none
    else
      match r.dropWhile notCloseParen with
      | ')' :: r3 => some r3
      | _ => none
  | _ => none

/-- `c?`: consume `c` when present (deterministic here: wherever the
pattern uses `(?`, `)?` or `-?`, not consuming an available `c` could
never rescue a failing remainder). -/
def optChar (c : Char) : List Char → List Char
  | d :: r => if d = c then r else d :: r
  | [] => []

/-- `[\d,]`. -/
def digitComma (c : Char) : Bool := isDigit09 c || c == ','

/-- `(?:\.\d+)?`: a decimal point followed by at least one digit, or
nothing. -/
def fracTail (s : List Char) : List Char :=
  match s with
  | '.' :: d :: r => if isDigit09 d then (d :: r).dropWhile isDigit09 else s
  | _ => s

/-- `-?\d[\d,]*(?:\.\d+)?`: a signed numeric literal. -/
def matchNumLit (s : List Char) : Option (List Char) :=
  match optChar '-' s with
  | c :: r =>
    if isDigit09 c then some (fracTail (r.dropWhile digitComma))
    else none
  | [] => none

/-- One iteration `\s*[+\-*\/x×]\s*\(?-?\d[\d,]*(?:\.\d+)?\)?` of the
numeric-chain tail (first branch of the group in alternative 3). -/
def iterA (s : List Char) : Option (List Char) :=
  match matchOpChar (skipWs s) with
  | none => none
  | some s1 =>
    match matchNumLit (optChar '(' (skipWs s1)) with
    | none => none
    | some s2 => some (optChar ')' s2)

/-- One iteration `\s*[+\-*\/x×]\s*\([^)]+\)` (second branch of the group
in alternative 3). -/
def iterB (s : List Char) : Option (List Char) :=
  match matchOpChar (skipWs s) with
  | none => none
  | some s1 => matchParenGroup (skipWs s1)

/-- One iteration of the group of alternative 3, first branch preferred. -/
def iterAB (s : List Char) : Option (List Char) :=
  match iterA s with
  | some r => some r
  | none => iterB s

/-- One iteration `\s*[+\-*\/x×]\s*\(?[^)]*\)?` of the group shared by
alternatives 1 and 2. -/
def iterC (s : List Char) : Option (List Char) :=
  match matchOpChar (skipWs s) with
  | none => none
  | some s1 => some (optChar ')' ((optChar '(' (skipWs s1)).dropWhile notCloseParen))

/-- Greedy repetition of `iterC`; every iteration consumes at least one
character, so fuel equal to the remaining length always suffices. -/
def starCF : Nat → List Char → List Char
  | 0, s => s
  | fuel + 1, s =>
    match iterC s with
    | some r => starCF fuel r
    | none => s

/-- Greedy repetition of `iterAB`; same fuel discipline as `starCF`. -/
def starABF : Nat → List Char → List Char
  | 0, s => s
  | fuel + 1, s =>
    match iterAB s with
    | some r => starABF fuel r
    | none => s

/-- Alternative 1 of `MATH_REGEX`:
`[+\-*\/x×]\s*\([^)]+\)(?:\s*[+\-*\/x×]\s*\(?[^)]*\)?)*`. -/
def alt1 (s : List Char) : Option (List Char) :=
  match matchOpChar s with
  | none => none
  | some s1 =>
    match matchParenGroup (skipWs s1) with
    | none => none
    | some s2 => some (starCF s2.length s2)

/-- Alternative 2 of `MATH_REGEX`:
`\([^)]+\)(?:\s*[+\-*\/x×]\s*\(?[^)]*\)?)+`. -/
def alt2 (s : List Char) : Option (List Char) :=
  match matchParenGroup s with
  | none => none
  | some s1 =>
    match iterC s1 with
    | none => none
    | some s2 => some (starCF s2.length s2)

/-- Alternative 3 of `MATH_REGEX`:
`-?\d[\d,]*(?:\.\d+)?(?:\s*[+\-*\/x×]\s*\(?-?\d[\d,]*(?:\.\d+)?\)?|\s*[+\-*\/x×]\s*\([^)]+\))+`. -/
def alt3 (s : List Char) : Option (List Char) :=
  match matchNumLit s with
  | none => none
  | some s1 =>
    match iterAB s1 with
    | none => none
    | some s2 => some (starABF s2.length s2)

/-- An anchored attempt of `MATH_REGEX` at the start of `s`, alternatives
in order; returns the unconsumed remainder on success. -/
def tryMatch (s : List Char) : Option (List Char) :=
  match alt1 s with
  | some r => some r
  | none =>
    match alt2 s with
    | some r => some r
    | none => alt3 s

theorem skipWs_suffix (s : List Char) : skipWs s <:+ s := List.dropWhile_suffix _

theorem matchOpChar_spec (s r : List Char) (h : matchOpChar s = some r) :
    r <:+ s ∧ r.length < s.length := by
  match s with
  | [] => exact absurd h (by simp [matchOpChar])
  | c :: t =>
    simp only [matchOpChar] at h
    split at h
    · simp only [Option.some.injEq] at h
      subst h
      exact ⟨List.suffix_cons c t, by simp⟩
    · cases h

theorem optChar_suffix (c : Char) (s : List Char) : optChar c s <:+ s := by
  match s with
  | [] => exact List.suffix_refl _
  | d :: r =>
    simp only [optChar]
    split
    · exact List.suffix_cons d r
    · exact List.suffix_refl _

theorem fracTail_suffix (s : List Char) : fracTail s <:+ s := by
  unfold fracTail
  split
  · split
    · exact (List.dropWhile_suffix _).trans (List.suffix_cons _ _)
    · exact List.suffix_refl _
  · exact List.suffix_refl _

theorem matchNumLit_spec (s r : List Char) (h : matchNumLit s = some r) :
    r <:+ s ∧ r.length < s.length := by
  have hopt : optChar '-' s <:+ s := optChar_suffix '-' s
  unfold matchNumLit at h
  split at h
  · rename_i c t heq
    rw [heq] at hopt
    split at h
    · simp only [Option.some.injEq] at h
      subst h
      have h1 : fracTail (t.dropWhile digitComma) <:+ t :=
        (fracTail_suffix _).trans (List.dropWhile_suffix _)
      have h2 := hopt.length_le
      have h3 := h1.length_le
      refine ⟨(h1.trans (List.suffix_cons c t)).trans hopt, ?_⟩
      simp only [List.length_cons] at h2
      omega
    · cases h
  · cases h

theorem matchParenGroup_spec (s r : List Char) (h : matchParenGroup s = some r) :
    r <:+ s ∧ r.length < s.length := by
  unfold matchParenGroup at h
  split at h
  · rename_i t
    split at h
    · cases h
    · split at h
      · rename_i r3 heq
        simp only [Option.some.injEq] at h
        subst h
        have h1 : t.dropWhile notCloseParen <:+ t := List.dropWhile_suffix _
        rw [heq] at h1
        have h2 : r3 <:+ t := (List.suffix_cons ')' r3).trans h1
        have h4 := h2.length_le
        refine ⟨h2.trans (List.suffix_cons '(' t), ?_⟩
        simp only [List.length_cons]
        omega
      · cases h
  · cases h

theorem iterA_spec (s r : List Char) (h : iterA s = some r) :
    r <:+ s ∧ r.length < s.length := by
  unfold iterA at h
  split at h
  · cases h
  · rename_i s1 hop
    split at h
    · cases h
    · rename_i s2 hnum
      simp only [Option.some.injEq] at h
      subst h
      have h1 := matchOpChar_spec _ _ hop
      have hws : skipWs s <:+ s := skipWs_suffix s
      have h2 := matchNumLit_spec _ _ hnum
      have h3 : optChar '(' (skipWs s1) <:+ s1 := (optChar_suffix _ _).trans (skipWs_suffix _)
      have h4 : optChar ')' s2 <:+ s2 := optChar_suffix _ _
      refine ⟨(h4.trans (h2.1.trans h3)).trans (h1.1.trans hws), ?_⟩
      have := h4.length_le
      have := h3.length_le
      have := h1.1.length_le
      have := hws.length_le
      omega

theorem iterB_spec (s r : List Char) (h : iterB s = some r) :
    r <:+ s ∧ r.length < s.length := by
  unfold iterB at h
  split at h
  · cases h
  · rename_i s1 hop
    have h1 := matchOpChar_spec _ _ hop
    have hws : skipWs s <:+ s := skipWs_suffix s
    have h2 := matchParenGroup_spec _ _ h
    have h3 : skipWs s1 <:+ s1 := skipWs_suffix s1
    refine ⟨(h2.1.trans h3).trans (h1.1.trans hws), ?_⟩
    have := h3.length_le
    have := hws.length_le
    omega

theorem iterAB_spec (s r : List Char) (h : iterAB s = some r) :
    r <:+ s ∧ r.length < s.length := by
  unfold iterAB at h
  split at h
  · rename_i hA
    simp only [Option.some.injEq] at h
    subst h
    exact iterA_spec _ _ hA
  · exact iterB_spec _ _ h

theorem iterC_spec (s r : List Char) (h : iterC s = some r) :
    r <:+ s ∧ r.length < s.length := by
  unfold iterC at h
  split at h
  · cases h
  · rename_i s1 hop
    simp only [Option.some.injEq] at h
    subst h
    have h1 := matchOpChar_spec _ _ hop
    have hws : skipWs s <:+ s := skipWs_suffix s
    have h2 : optChar '(' (skipWs s1) <:+ s1 := (optChar_suffix _ _).trans (skipWs_suffix _)
    have h3 : (optChar '(' (skipWs s1)).dropWhile notCloseParen <:+ optChar '(' (skipWs s1) :=
      List.dropWhile_suffix _
    have h4 : optChar ')' ((optChar '(' (skipWs s1)).dropWhile notCloseParen) <:+
        (optChar '(' (skipWs s1)).dropWhile notCloseParen := optChar_suffix _ _
    refine ⟨((h4.trans h3).trans h2).trans (h1.1.trans hws), ?_⟩
    have := h4.length_le
    have := h3.length_le
    have := h2.length_le
    have := hws.length_le
    omega

theorem starCF_suffix (fuel : Nat) : ∀ s : List Char, starCF fuel s <:+ s := by
  induction fuel with
  | zero => intro s; exact List.suffix_refl _
  | succ n ih =>
    intro s
    unfold starCF
    split
    · rename_i r hr
      exact (ih r).trans (iterC_spec _ _ hr).1
    · exact List.suffix_refl _

theorem starABF_suffix (fuel : Nat) : ∀ s : List Char, starABF fuel s <:+ s := by
  induction fuel with
  | zero => intro s; exact List.suffix_refl _
  | succ n ih =>
    intro s
    unfold starABF
    split
    · rename_i r hr
      exact (ih r).trans (iterAB_spec _ _ hr).1
    · exact List.suffix_refl _

theorem alt1_spec (s r : List Char) (h : alt1 s = some r) :
    r <:+ s ∧ r.length < s.length := by
  unfold alt1 at h
  split at h
  · cases h
  · rename_i s1 hop
    split at h
    · cases h
    · rename_i s2 hpg
      simp only [Option.some.injEq] at h
      subst h
      have h1 := matchOpChar_spec _ _ hop
      have h2 := matchParenGroup_spec _ _ hpg
      have h3 : skipWs s1 <:+ s1 := skipWs_suffix s1
      have h4 : starCF s2.length s2 <:+ s2 := starCF_suffix _ s2
      refine ⟨(h4.trans ((h2.1.trans h3).trans h1.1)), ?_⟩
      have := h4.length_le
      have := h3.length_le
      omega

theorem alt2_spec (s r : List Char) (h : alt2 s = some r) :
    r <:+ s ∧ r.length < s.length := by
  unfold alt2 at h
  split at h
  · cases h
  · rename_i s1 hpg
    split at h
    · cases h
    · rename_i s2 hic
      simp only [Option.some.injEq] at h
      subst h
      have h1 := matchParenGroup_spec _ _ hpg
      have h2 := iterC_spec _ _ hic
      have h3 : starCF s2.length s2 <:+ s2 := starCF_suffix _ s2
      refine ⟨(h3.trans h2.1).trans h1.1, ?_⟩
      have := h3.length_le
      omega

theorem alt3_spec (s r : List Char) (h : alt3 s = some r) :
    r <:+ s ∧ r.length < s.length := by
  unfold alt3 at h
  split at h
  · cases h
  · rename_i s1 hnum
    split at h
    · cases h
    · rename_i s2 hab
      simp only [Option.some.injEq] at h
      subst h
      have h1 := matchNumLit_spec _ _ hnum
      have h2 := iterAB_spec _ _ hab
      have h3 : starABF s2.length s2 <:+ s2 := starABF_suffix _ s2
      refine ⟨(h3.trans h2.1).trans h1.1, ?_⟩
      have := h3.length_le
      omega

theorem tryMatch_spec (s r : List Char) (h : tryMatch s = some r) :
    r <:+ s ∧ r.length < s.length := by
  unfold tryMatch at h
  split at h
  · rename_i h1
    simp only [Option.some.injEq] at h
    subst h
    exact alt1_spec _ _ h1
  · split at h
    · rename_i h2
      simp only [Option.some.injEq] at h
      subst h
      exact alt2_spec _ _ h2
    · exact alt3_spec _ _ h

/-- The `regex.exec` loop of `findAllExpressions` (detectMath.ts lines
148-153): starting from `lastIndex`, find the leftmost position where
`MATH_REGEX` matches, record the match's absolute index and text, and
continue after it.  `s` is the unscanned suffix, `off` its absolute
offset.  Every step consumes at least one character (a successful match
is never empty), so fuel equal to the remaining length suffices. -/
def execScanF : Nat → List Char → Nat → List (Nat × List Char)
  | 0, _, _ => []
  | _ + 1, [], _ => []
  | fuel + 1, c :: rest, off =>
    match tryMatch (c :: rest) with
    | some r =>
      (off, (c :: rest).take ((c :: rest).length - r.length)) ::
        execScanF fuel r (off + ((c :: rest).length - r.length))
    | none => execScanF fuel rest (off + 1)

/-- The source's `MathExpressionResult` interface (detectMath.ts lines
4-13). -/
structure MathExpressionResult where
  expression : List Char
  result : JsNum
  startIndex : Nat
  endIndex : Nat
deriving DecidableEq, Repr

/-- The `/[\d.]/` class of the fragment filters. -/
def isDigitOrDot (c : Char) : Bool := isDigit09 c || c == '.'

/-- `matchIndex > 0 && /[\d.]/.test(text[matchIndex - 1])` (detectMath.ts
line 156). -/
def precededByDigitOrDot (text : List Char) (idx : Nat) : Bool :=
  decide (0 < idx) &&
    (match text.get? (idx - 1) with
     | some c => isDigitOrDot c
     | none => false)

/-- `afterIndex < text.length && text[afterIndex] === "."` (detectMath.ts
line 160). -/
def followedByDot (text : List Char) (j : Nat) : Bool :=
  match text.get? j with
  | some c => c == '.'
  | none => false

/-- The per-candidate body of the `findAllExpressions` loop (detectMath.ts
lines 151-176): the two fragment-exclusion filters, tokenization and
evaluation, and the construction of the emitted `MathExpressionResult`. -/
def buildMatch (text : List Char) (idx : Nat) (full : List Char) :
    Option MathExpressionResult :=
  if precededByDigitOrDot text idx then none
  else if followedByDot text (idx + full.length) then none
  else
    match evaluateTokens (tokenize full) with
    | none => none
    | some v =>
      some { expression := full, result := formatNumber v,
             startIndex := idx, endIndex := idx + full.length }

/-- `findAllExpressions` (detectMath.ts lines 146-179). -/
def findAllExpressions (text : List Char) : List MathExpressionResult :=
  (execScanF text.length text 0).filterMap (fun e => buildMatch text e.1 e.2)

/-- `detectMathExpression` (detectMath.ts lines 188-190). -/
def detectMathExpression (text : List Char) : Option MathExpressionResult :=
  (findAllExpressions text).head?

/-- The cursor-containment test of `detectMathExpressionAtCursor`
(`cursorPosition >= m.startIndex && cursorPosition <= m.endIndex`). -/
def cursorInside (c : Int) (m : MathExpressionResult) : Bool :=
  decide ((m.startIndex : Int) ≤ c ∧ c ≤ (m.endIndex : Int))

/-- The closest-preceding test of `detectMathExpressionAtCursor`
(`m.endIndex <= cursorPosition`). -/
def cursorAfterEnd (c : Int) (m : MathExpressionResult) : Bool :=
  decide ((m.endIndex : Int) ≤ c)

/-- `detectMathExpressionAtCursor` (detectMath.ts lines 200-219). -/
def detectMathExpressionAtCursor (text : List Char) (cursorPosition : Int) :
    Option MathExpressionResult :=
  if (findAllExpressions text).isEmpty then none
  else
    match (findAllExpressions text).find? (cursorInside cursorPosition) with
    | some m => some m
    | none =>
      match ((findAllExpressions text).filter (cursorAfterEnd cursorPosition)).getLast? with
      | some m => some m
      | none => (findAllExpressions text).head?

example : execScanF 4 (chars "10+5") 0 = [(0, chars "10+5")] := by decide

example : execScanF 16 (chars "hello 10+5 world") 0 = [(6, chars "10+5")] := by decide

example : execScanF 27 (chars "The total is 100+50 dollars") 0 =
    [(13, chars "100+50")] := by decide

example : execScanF 7 (chars "1.2.3+4") 0 = [(2, chars "2.3+4")] := by decide

example : execScanF 12 (chars "No math here") 0 = [] := by decide

example : execScanF 8 (chars "(10+5)*2") 0 = [(0, chars "(10+5)*2")] := by decide

example : execScanF 10 (chars "5-(3+2)") 0 = [(0, chars "5-(3+2)")] := by decide

example : buildMatch (chars "1.2.3+4") 2 (chars "2.3+4") = none := by
  unfold buildMatch
  rw [if_pos (by decide)]

theorem buildMatch_eval (text : List Char) (idx : Nat) (full : List Char) (v : JsNum)
    (g1 : precededByDigitOrDot text idx = false)
    (g2 : followedByDot text (idx + full.length) = false)
    (he : evaluateTokens (tokenize full) = some v) :
    buildMatch text idx full =
      some { expression := full, result := formatNumber v,
             startIndex := idx, endIndex := idx + full.length } := by
  unfold buildMatch
  rw [g1, g2, he]
  simp

theorem findAll_singleton (text : List Char) (idx : Nat) (full : List Char)
    (m : MathExpressionResult)
    (hexec : execScanF text.length text 0 = [(idx, full)])
    (hbm : buildMatch text idx full = some m) :
    findAllExpressions text = [m] := by
  unfold findAllExpressions
  rw [hexec]
  simp [List.filterMap_cons, hbm]

theorem buildMatch_shape (text : List Char) (idx : Nat) (full : List Char)
    (m : MathExpressionResult) (h : buildMatch text idx full = some m) :
    m.expression = full ∧ m.startIndex = idx ∧ m.endIndex = idx + full.length ∧
      ∃ v, evaluateTokens (tokenize full) = some v ∧ m.result = formatNumber v := by
  unfold buildMatch at h
  split at h
  · cases h
  · split at h
    · cases h
    · split at h
      · cases h
      · rename_i v hv
        simp only [Option.some.injEq] at h
        subst h
        exact ⟨rfl, rfl, rfl, v, hv, rfl⟩

theorem execScanF_mem (fuel : Nat) : ∀ (s : List Char) (off p : Nat) (m : List Char),
    (p, m) ∈ execScanF fuel s off →
    off ≤ p ∧ m = (s.drop (p - off)).take m.length ∧ m.length ≠ 0 := by
  induction fuel with
  | zero => intro s off p m h; simp [execScanF] at h
  | succ n ih =>
    intro s off p m h
    cases s with
    | nil => simp [execScanF] at h
    | cons c rest =>
      unfold execScanF at h
      split at h
      · rename_i r htm
        have hspec := tryMatch_spec _ _ htm
        have hlt := hspec.2
        rcases List.mem_cons.mp h with hh | hh
        · simp only [Prod.mk.injEq] at hh
          obtain ⟨hp, hm⟩ := hh
          subst hp
          subst hm
          have hLle : (c :: rest).length - r.length ≤ (c :: rest).length := by omega
          refine ⟨Nat.le_refl _, ?_, ?_⟩
          · simp only [Nat.sub_self, List.drop_zero, List.length_take]
            rw [Nat.min_eq_left hLle]
          · simp only [List.length_take, List.length_cons, ne_eq]
            simp only [List.length_cons] at hlt
            omega
        · have hih := ih r (off + ((c :: rest).length - r.length)) p m hh
          have hr : (c :: rest).drop ((c :: rest).length - r.length) = r := by
            obtain ⟨t, ht⟩ := hspec.1
            rw [← ht]
            have hl : (t ++ r).length - r.length = t.length := by
              simp [List.length_append]
            rw [hl, List.drop_left]
          have h1 := hih.1
          refine ⟨by omega, ?_, hih.2.2⟩
          have hdd : (c :: rest).drop (p - off) =
              r.drop (p - (off + ((c :: rest).length - r.length))) := by
            have hsplit : p - off =
                ((c :: rest).length - r.length) +
                  (p - (off + ((c :: rest).length - r.length))) := by omega
            rw [hsplit, ← List.drop_drop, hr]
          rw [hdd]
          exact hih.2.1
      · have hih := ih rest (off + 1) p m h
        refine ⟨by omega, ?_, hih.2.2⟩
        have hdd : (c :: rest).drop (p - off) = rest.drop (p - (off + 1)) := by
          have hpo : p - off = (p - (off + 1)) + 1 := by omega
          rw [hpo]
          rfl
        rw [hdd]
        exact hih.2.1

theorem execScanF_pairwise (fuel : Nat) : ∀ (s : List Char) (off : Nat),
    (execScanF fuel s off).Pairwise (fun a b => a.1 + a.2.length ≤ b.1) := by
  induction fuel with
  | zero => intro s off; simp [execScanF]
  | succ n ih =>
    intro s off
    cases s with
    | nil => simp [execScanF]
    | cons c rest =>
      unfold execScanF
      split
      · rename_i r htm
        refine List.Pairwise.cons ?_ (ih r _)
        intro b hb
        have hmem := execScanF_mem n r _ b.1 b.2 (by simpa using hb)
        simp only [List.length_take, List.length_cons]
        simp only [List.length_cons] at hmem
        omega
      · exact ih rest (off + 1)

theorem findAll_mem_shape (text : List Char) (m : MathExpressionResult)
    (h : m ∈ findAllExpressions text) :
    ∃ p full, (p, full) ∈ execScanF text.length text 0 ∧
      m.expression = full ∧ m.startIndex = p ∧ m.endIndex = p + full.length ∧
      ∃ v, evaluateTokens (tokenize full) = some v ∧ m.result = formatNumber v := by
  unfold findAllExpressions at h
  rcases List.mem_filterMap.mp h with ⟨⟨p, full⟩, hmem, hbm⟩
  exact ⟨p, full, hmem, buildMatch_shape text p full m hbm⟩

theorem findAll_pairwise (text : List Char) :
    (findAllExpressions text).Pairwise (fun a b => a.endIndex ≤ b.startIndex) := by
  unfold findAllExpressions
  rw [List.pairwise_filterMap]
  refine (execScanF_pairwise _ _ _).imp ?_
  intro a b hab m1 h1 m2 h2
  have s1 := buildMatch_shape _ _ _ _ h1
  have s2 := buildMatch_shape _ _ _ _ h2
  rw [s1.2.2.1, s2.2.1]
  omega

/-- Every emitted match satisfies `endIndex = startIndex +
expression.length` (immediate from the construction, as in the source). -/
theorem findAll_mem_span (text : List Char) (m : MathExpressionResult)
    (h : m ∈ findAllExpressions text) :
    m.endIndex = m.startIndex + m.expression.length := by
  obtain ⟨p, full, _, he, hs, hE, _⟩ := findAll_mem_shape text m h
  rw [he, hs, hE]

/-!
## The oversized input of the repository's ReDoS tests (claim C1)

The spec (§4.3, §7) and the repository's own test suite
(`__tests__/detectMath.test.ts`, "ReDoS safety") require `findAllExpressions`
to return no matches for text longer than 10,000 characters.  The code of
`findAllExpressions` contains no such length guard, so the oversized test
input `'1+2 ' + 'a'.repeat(10001)` still produces the match for `"1+2"`.
The lemmas below evaluate the scanner on that input symbolically (the
10,001-character padding is handled by induction rather than by direct
kernel evaluation).
-/

theorem execScanF_cons_match (fuel : Nat) (c : Char) (rest r : List Char) (off : Nat)
    (h : tryMatch (c :: rest) = some r) :
    execScanF (fuel + 1) (c :: rest) off =
      (off, (c :: rest).take ((c :: rest).length - r.length)) ::
        execScanF fuel r (off + ((c :: rest).length - r.length)) := by
  conv_lhs => rw [execScanF]
  rw [h]

theorem execScanF_cons_none (fuel : Nat) (c : Char) (rest : List Char) (off : Nat)
    (h : tryMatch (c :: rest) = none) :
    execScanF (fuel + 1) (c :: rest) off = execScanF fuel rest (off + 1) := by
  conv_lhs => rw [execScanF]
  rw [h]

theorem tryMatch_aChar (t : List Char) : tryMatch ('a' :: t) = none := rfl

theorem tryMatch_space_a (t : List Char) : tryMatch (' ' :: 'a' :: t) = none := rfl

theorem tryMatch_c1 (t : List Char) :
    tryMatch ('1' :: '+' :: '2' :: ' ' :: 'a' :: t) = some (' ' :: 'a' :: t) := rfl

theorem execScanF_replicate_a (fuel : Nat) : ∀ (n off : Nat),
    execScanF fuel (List.replicate n 'a') off = [] := by
  induction fuel with
  | zero => intro n off; rfl
  | succ f ih =>
    intro n off
    cases n with
    | zero => rfl
    | succ n =>
      rw [List.replicate_succ, execScanF_cons_none f _ _ _ (tryMatch_aChar _)]
      exact ih n (off + 1)

/-- The oversized input of the repository's own ReDoS test:
`'1+2 ' + 'a'.repeat(10001)`, of length 10005 > 10000. -/
def oversizedText : List Char := chars "1+2 " ++ List.replicate 10001 'a'

theorem oversizedText_eq :
    oversizedText = '1' :: '+' :: '2' :: ' ' :: 'a' :: List.replicate 10000 'a' := by
  unfold oversizedText
  rw [show (10001 : Nat) = 10000 + 1 from rfl, List.replicate_succ]
  rfl

theorem oversizedText_length : oversizedText.length = 10005 := by
  rw [oversizedText_eq]
  simp only [List.length_cons, List.length_replicate]

theorem c1_exec : execScanF 10005 oversizedText 0 = [(0, chars "1+2")] := by
  rw [oversizedText_eq]
  rw [show (10005 : Nat) = 10004 + 1 from rfl]
  rw [execScanF_cons_match 10004 _ _ _ _ (tryMatch_c1 _)]
  have hL : ('1' :: '+' :: '2' :: ' ' :: 'a' :: List.replicate 10000 'a').length -
      (' ' :: 'a' :: (List.replicate 10000 'a' : List Char)).length = 3 := by
    simp only [List.length_cons, List.length_replicate]
  rw [hL]
  rw [show (10004 : Nat) = 10003 + 1 from rfl]
  rw [execScanF_cons_none 10003 _ _ _ (tryMatch_space_a _)]
  rw [show (10003 : Nat) = 10002 + 1 from rfl]
  rw [execScanF_cons_none 10002 _ _ _ (tryMatch_aChar _)]
  rw [show ('a' :: List.replicate 10000 'a' : List Char) = List.replicate 10001 'a' from
    (List.replicate_succ 'a' 10000).symm]
  rw [execScanF_replicate_a]
  rfl

/-- **C1** (code bug): the spec and the repository's own ReDoS tests require
`findAllExpressions` to return no matches for input text longer than 10,000
characters, with `detectMathExpression` then `null`.  The code has no
length guard at all: on the test suite's own oversized input
`'1+2 ' + 'a'.repeat(10001)` (length 10005), `detectMathExpression`
returns the match for `"1+2"` with result 3 instead of `null`. -/
theorem claim_C1 :
    10000 < oversizedText.length ∧
    detectMathExpression oversizedText =
      some { expression := chars "1+2", result := JsNum.fin 3,
             startIndex := 0, endIndex := 3 } := by
  constructor
  · rw [oversizedText_length]
    omega
  · have hexec : execScanF oversizedText.length oversizedText 0 = [(0, chars "1+2")] := by
      rw [oversizedText_length]
      exact c1_exec
    have heval : evaluateTokens (tokenize (chars "1+2")) = some (JsNum.fin 3) := by
      rw [show tokenize (chars "1+2") =
          [Tok.num (JsNum.fin 1), Tok.op '+', Tok.num (JsNum.fin 2)] from by decide]
      rw [evaluateTokens_noParens _ _ _ (by decide) (by decide)]
      decide
    have hg1 : precededByDigitOrDot oversizedText 0 = false := rfl
    have hg2 : followedByDot oversizedText (0 + (chars "1+2").length) = false := rfl
    have hbm : buildMatch oversizedText 0 (chars "1+2") =
        some { expression := chars "1+2", result := JsNum.fin 3,
               startIndex := 0, endIndex := 3 } := by
      rw [buildMatch_eval oversizedText 0 (chars "1+2") (JsNum.fin 3) hg1 hg2 heval]
      decide
    have hall := findAll_singleton oversizedText 0 (chars "1+2") _ hexec hbm
    unfold detectMathExpression
    rw [hall]
    rfl

/-!
## The overflow input of the repository's Infinity-filtering tests (claim C2)

The spec (§4.3, §7) and the test suite ("Infinity/NaN filtering") require
candidates whose evaluation is not a finite number to be discarded.  The
loop body of `findAllExpressions` checks only `result === null` and never
`Number.isFinite(result)`, so the test's own overflow input
`'9'.repeat(309) + '*' + '9'.repeat(309)` — whose literals already parse
to `Infinity` — is emitted as a match with `result = Infinity`.
-/

/-- The overflow input of the repository's own test:
`'9'.repeat(309) + '*' + '9'.repeat(309)`. -/
def overflowExpr : List Char :=
  List.replicate 309 '9' ++ '*' :: List.replicate 309 '9'

/-- **C2** (code bug): the spec and the repository's own tests require every
emitted match to have a finite result, but `findAllExpressions` never
checks finiteness (only `result === null`): on the test suite's own
overflow input `'9'.repeat(309) + '*' + '9'.repeat(309)`, whose numeric
literals overflow double precision to `Infinity`, `detectMathExpression`
returns a match whose `result` is `Infinity`. -/
theorem claim_C2 :
    detectMathExpression overflowExpr =
      some { expression := overflowExpr, result := JsNum.inf,
             startIndex := 0, endIndex := 619 } := by
  have hexec : execScanF overflowExpr.length overflowExpr 0 = [(0, overflowExpr)] := by
    decide
  have heval : evaluateTokens (tokenize overflowExpr) = some JsNum.inf := by
    rw [show tokenize overflowExpr =
        [Tok.num JsNum.inf, Tok.op '*', Tok.num JsNum.inf] from by decide]
    rw [evaluateTokens_noParens _ _ _ (by decide) (by decide)]
    decide
  have hg1 : precededByDigitOrDot overflowExpr 0 = false := rfl
  have hg2 : followedByDot overflowExpr (0 + overflowExpr.length) = false := by decide
  have hbm : buildMatch overflowExpr 0 overflowExpr =
      some { expression := overflowExpr, result := JsNum.inf,
             startIndex := 0, endIndex := 619 } := by
    rw [buildMatch_eval overflowExpr 0 overflowExpr JsNum.inf hg1 hg2 heval]
    decide
  have hall := findAll_singleton overflowExpr 0 overflowExpr _ hexec hbm
  unfold detectMathExpression
  rw [hall]
  rfl

/-- **C7**: every `Match` produced by `findAllExpressions` (hence by the
two selectors) satisfies `endIndex - startIndex = expression.length`, and
`expression` equals the substring of the original text from `startIndex`
to `endIndex`. -/
theorem claim_C7 (text : List Char) (m : MathExpressionResult)
    (h : m ∈ findAllExpressions text) :
    m.endIndex - m.startIndex = m.expression.length ∧
    m.expression = (text.drop m.startIndex).take (m.endIndex - m.startIndex) := by
  obtain ⟨p, full, hmem, he, hs, hE, _⟩ := findAll_mem_shape text m h
  have hspan : m.endIndex - m.startIndex = m.expression.length := by
    rw [he, hs, hE]
    omega
  refine ⟨hspan, ?_⟩
  have hm := execScanF_mem text.length text 0 p full hmem
  rw [hspan, he, hs]
  simpa using hm.2.1

theorem claim_C7_witness :
    (⟨chars "3+4", JsNum.fin 7, 0, 3⟩ : MathExpressionResult) ∈
        findAllExpressions (chars "3+4") ∧
    ((3 : Nat) - 0 = (chars "3+4").length ∧
      chars "3+4" = (((chars "3+4").drop 0).take (3 - 0))) := by
  have heval : evaluateTokens (tokenize (chars "3+4")) = some (JsNum.fin 7) := by
    rw [show tokenize (chars "3+4") =
        [Tok.num (JsNum.fin 3), Tok.op '+', Tok.num (JsNum.fin 4)] from by decide]
    rw [evaluateTokens_noParens _ _ _ (by decide) (by decide)]
    decide
  have hbm : buildMatch (chars "3+4") 0 (chars "3+4") =
      some { expression := chars "3+4", result := JsNum.fin 7,
             startIndex := 0, endIndex := 3 } := by
    rw [buildMatch_eval (chars "3+4") 0 (chars "3+4") (JsNum.fin 7) rfl rfl heval]
    decide
  have hall := findAll_singleton (chars "3+4") 0 (chars "3+4") _ (by decide) hbm
  have hmem : (⟨chars "3+4", JsNum.fin 7, 0, 3⟩ : MathExpressionResult) ∈
        findAllExpressions (chars "3+4") := by
    rw [hall]
    exact List.mem_singleton.mpr rfl
  exact ⟨hmem, claim_C7 (chars "3+4") _ hmem⟩

theorem getLast?_mem_of_eq_some {l : List MathExpressionResult}
    {a : MathExpressionResult} (h : l.getLast? = some a) : a ∈ l := by
  obtain ⟨hne, heq⟩ := List.mem_getLast?_eq_getLast (Option.mem_def.mpr h)
  rw [heq]
  exact List.getLast_mem hne

theorem mem_endIndex_le_getLast :
    ∀ (l : List MathExpressionResult) (last : MathExpressionResult),
    l.Pairwise (fun a b => a.endIndex ≤ b.startIndex) →
    (∀ m ∈ l, m.startIndex ≤ m.endIndex) →
    l.getLast? = some last →
    ∀ m ∈ l, m.endIndex ≤ last.endIndex := by
  intro l
  induction l with
  | nil => intro last _ _ h; cases h
  | cons a t ih =>
    intro last hp hse hl m hm
    cases t with
    | nil =>
      have ha : last = a := by
        simp only [List.getLast?_singleton, Option.some.injEq] at hl
        exact hl.symm
      have hma : m = a := by
        simpa using hm
      rw [ha, hma]
    | cons b t2 =>
      have hl2 : (b :: t2).getLast? = some last := by
        rwa [List.getLast?_cons_cons] at hl
      rcases List.mem_cons.mp hm with rfl | hm2
      · have hmem : last ∈ b :: t2 := getLast?_mem_of_eq_some hl2
        have h1 := (List.pairwise_cons.mp hp).1 last hmem
        have h2 := hse last (List.mem_cons_of_mem m hmem)
        omega
      · exact ih last (List.pairwise_cons.mp hp).2
          (fun x hx => hse x (List.mem_cons_of_mem a hx)) hl2 m hm2

theorem detectAtCursor_none_iff (text : List Char) (c : Int) :
    detectMathExpressionAtCursor text c = none ↔ findAllExpressions text = [] := by
  unfold detectMathExpressionAtCursor
  split
  · rename_i hemp
    rw [List.isEmpty_iff] at hemp
    simp [hemp]
  · rename_i hemp
    have hne : findAllExpressions text ≠ [] := by
      simpa [List.isEmpty_iff] using hemp
    constructor
    · intro hres
      exfalso
      split at hres
      · simp at hres
      · split at hres
        · simp at hres
        · rw [List.head?_eq_none_iff] at hres
          exact hne hres
    · intro h
      exact absurd h hne

theorem detectAtCursor_found (text : List Char) (c : Int) (m : MathExpressionResult)
    (hfind : (findAllExpressions text).find? (cursorInside c) = some m) :
    detectMathExpressionAtCursor text c = some m := by
  unfold detectMathExpressionAtCursor
  have hne : ¬(findAllExpressions text).isEmpty = true := by
    intro hi
    rw [List.isEmpty_iff] at hi
    rw [hi] at hfind
    simp at hfind
  rw [if_neg hne, hfind]

theorem detectAtCursor_before (text : List Char) (c : Int) (m : MathExpressionResult)
    (hnc : (findAllExpressions text).find? (cursorInside c) = none)
    (hlast : ((findAllExpressions text).filter (cursorAfterEnd c)).getLast? = some m) :
    detectMathExpressionAtCursor text c = some m ∧
      ∀ m' ∈ (findAllExpressions text).filter (cursorAfterEnd c),
        m'.endIndex ≤ m.endIndex := by
  have hmemf : m ∈ (findAllExpressions text).filter (cursorAfterEnd c) :=
    getLast?_mem_of_eq_some hlast
  have hne : ¬(findAllExpressions text).isEmpty = true := by
    intro hi
    rw [List.isEmpty_iff] at hi
    rw [hi] at hmemf
    simp at hmemf
  constructor
  · unfold detectMathExpressionAtCursor
    rw [if_neg hne, hnc, hlast]
  · exact mem_endIndex_le_getLast _ m
      ((findAll_pairwise text).filter _)
      (fun x hx => by
        have := findAll_mem_span text x (List.mem_of_mem_filter hx)
        omega)
      hlast

theorem detectAtCursor_first (text : List Char) (c : Int)
    (hnc : ∀ m' ∈ findAllExpressions text, ¬ cursorInside c m' = true)
    (hgt : ∀ m' ∈ findAllExpressions text, ¬ cursorAfterEnd c m' = true) :
    detectMathExpressionAtCursor text c = (findAllExpressions text).head? := by
  cases hAll : findAllExpressions text with
  | nil =>
    unfold detectMathExpressionAtCursor
    rw [hAll]
    rfl
  | cons a t =>
    have hfind : (findAllExpressions text).find? (cursorInside c) = none :=
      List.find?_eq_none.mpr hnc
    have hfil : (findAllExpressions text).filter (cursorAfterEnd c) = [] :=
      List.filter_eq_nil_iff.mpr hgt
    unfold detectMathExpressionAtCursor
    rw [if_neg (by rw [hAll]; simp), hfind, hfil]
    rw [hAll]
    rfl

/-- **C4**: `detectMathExpressionAtCursor` returns (1) `null` exactly when
`findAllExpressions` is empty; (2) the first match (in document order)
whose span contains the cursor inclusively on both ends, when one exists;
(3) otherwise the last match with `endIndex ≤ cursor`, which has the
greatest `endIndex` among all such matches; (4) otherwise (the cursor
strictly precedes every match's end and no span contains it) the first
match in document order. -/
theorem claim_C4 (text : List Char) (c : Int) :
    (detectMathExpressionAtCursor text c = none ↔ findAllExpressions text = []) ∧
    (∀ m, (findAllExpressions text).find? (cursorInside c) = some m →
      detectMathExpressionAtCursor text c = some m) ∧
    (∀ m, (findAllExpressions text).find? (cursorInside c) = none →
      ((findAllExpressions text).filter (cursorAfterEnd c)).getLast? = some m →
      detectMathExpressionAtCursor text c = some m ∧
        ∀ m' ∈ findAllExpressions text, cursorAfterEnd c m' = true →
          m'.endIndex ≤ m.endIndex) ∧
    ((∀ m' ∈ findAllExpressions text, cursorInside c m' = false) →
      (∀ m' ∈ findAllExpressions text, cursorAfterEnd c m' = false) →
      detectMathExpressionAtCursor text c = (findAllExpressions text).head?) := by
  refine ⟨detectAtCursor_none_iff text c, fun m => detectAtCursor_found text c m, ?_, ?_⟩
  · intro m hnc hlast
    obtain ⟨h1, h2⟩ := detectAtCursor_before text c m hnc hlast
    exact ⟨h1, fun m' hm' hq => h2 m' (List.mem_filter.mpr ⟨hm', hq⟩)⟩
  · intro hnc hgt
    exact detectAtCursor_first text c
      (fun m' hm' => by simp [hnc m' hm'])
      (fun m' hm' => by simp [hgt m' hm'])

theorem claim_C4_witness :
    (findAllExpressions (chars "hello 10+5 world")).find? (cursorInside 8) =
      some ⟨chars "10+5", JsNum.fin 15, 6, 10⟩ ∧
    detectMathExpressionAtCursor (chars "hello 10+5 world") 8 =
      some ⟨chars "10+5", JsNum.fin 15, 6, 10⟩ := by
  have heval : evaluateTokens (tokenize (chars "10+5")) = some (JsNum.fin 15) := by
    rw [show tokenize (chars "10+5") =
        [Tok.num (JsNum.fin 10), Tok.op '+', Tok.num (JsNum.fin 5)] from by decide]
    rw [evaluateTokens_noParens _ _ _ (by decide) (by decide)]
    decide
  have hbm : buildMatch (chars "hello 10+5 world") 6 (chars "10+5") =
      some ⟨chars "10+5", JsNum.fin 15, 6, 10⟩ := by
    rw [buildMatch_eval (chars "hello 10+5 world") 6 (chars "10+5") (JsNum.fin 15)
      (by decide) (by decide) heval]
    decide
  have hall := findAll_singleton (chars "hello 10+5 world") 6 (chars "10+5") _
    (by decide) hbm
  have hfind : (findAllExpressions (chars "hello 10+5 world")).find? (cursorInside 8) =
      some ⟨chars "10+5", JsNum.fin 15, 6, 10⟩ := by
    rw [hall]
    decide
  exact ⟨hfind, (claim_C4 (chars "hello 10+5 world") 8).2.1 _ hfind⟩

/-- **C3**: `evaluateTokens` applies operators to the parenthesis-free
token sequence in two passes, each left to right — first every `*` and `/`
triplet, then every `+` and `-` triplet — so multiplication and division
bind tighter than addition and subtraction, and equal-precedence chains
associate to the left: `detectMathExpression "10+5*2"` yields 20 (not
30) and `evaluateTokens (tokenize "20/2/2")` yields 5. -/
theorem claim_C3 :
    (∀ (v : JsNum) (t2 : Tok) (rest : List Tok),
      Tok.op '(' ∉ Tok.num v :: t2 :: rest →
      Tok.op ')' ∉ Tok.num v :: t2 :: rest →
      evaluateTokens (Tok.num v :: t2 :: rest) =
        match collapseOps (Tok.num v :: t2 :: rest) ['*', '/'] with
        | none => none
        | some w2 =>
          match collapseOps w2 ['+', '-'] with
          | none => none
          | some w3 =>
            match w3.head? with
            | some (Tok.num r) => some r
            | _ => none) ∧
    detectMathExpression (chars "10+5*2") =
      some ⟨chars "10+5*2", JsNum.fin 20, 0, 6⟩ ∧
    evaluateTokens (tokenize (chars "20/2/2")) = some (JsNum.fin 5) := by
  refine ⟨evaluateTokens_noParens, ?_, ?_⟩
  · have heval : evaluateTokens (tokenize (chars "10+5*2")) = some (JsNum.fin 20) := by
      rw [show tokenize (chars "10+5*2") =
          [Tok.num (JsNum.fin 10), Tok.op '+', Tok.num (JsNum.fin 5), Tok.op '*',
           Tok.num (JsNum.fin 2)] from by decide]
      rw [evaluateTokens_noParens _ _ _ (by decide) (by decide)]
      decide
    have hbm : buildMatch (chars "10+5*2") 0 (chars "10+5*2") =
        some ⟨chars "10+5*2", JsNum.fin 20, 0, 6⟩ := by
      rw [buildMatch_eval (chars "10+5*2") 0 (chars "10+5*2") (JsNum.fin 20)
        (by decide) (by decide) heval]
      decide
    have hall := findAll_singleton (chars "10+5*2") 0 (chars "10+5*2") _ (by decide) hbm
    unfold detectMathExpression
    rw [hall]
    rfl
  · rw [show tokenize (chars "20/2/2") =
        [Tok.num (JsNum.fin 20), Tok.op '/', Tok.num (JsNum.fin 2), Tok.op '/',
         Tok.num (JsNum.fin 2)] from by decide]
    rw [evaluateTokens_noParens _ _ _ (by decide) (by decide)]
    decide

theorem claim_C3_witness :
    Tok.op '(' ∉ [Tok.num (JsNum.fin 10), Tok.op '+', Tok.num (JsNum.fin 5)] ∧
    evaluateTokens [Tok.num (JsNum.fin 10), Tok.op '+', Tok.num (JsNum.fin 5)] =
      match collapseOps [Tok.num (JsNum.fin 10), Tok.op '+', Tok.num (JsNum.fin 5)]
          ['*', '/'] with
      | none => none
      | some w2 =>
        match collapseOps w2 ['+', '-'] with
        | none => none
        | some w3 =>
          match w3.head? with
          | some (Tok.num r) => some r
          | _ => none :=
  ⟨by decide,
    claim_C3.1 (JsNum.fin 10) (Tok.op '+') [Tok.num (JsNum.fin 5)] (by decide) (by decide)⟩

theorem get?_splice (work : List Tok) (r : Tok) (j k : Nat)
    (hj1 : 1 ≤ j) (hjlen : j - 1 ≤ work.length) (hk : j ≤ k) :
    (work.take (j - 1) ++ r :: work.drop (j + 2)).get? k = work.get? (k + 2) := by
  have hlen : (work.take (j - 1)).length = j - 1 := List.length_take_of_le hjlen
  rw [List.get?_append_right (by omega)]
  rw [hlen]
  rw [show k - (j - 1) = (k - j) + 1 by omega]
  rw [List.get?_cons_succ]
  rw [List.get?_drop]
  congr 1
  omega

theorem collapseOpsF_div_zero (fuel : Nat) :
    ∀ (work : List Tok) (i j : Nat), j ≤ i →
    work.get? i = some (Tok.op '/') →
    work.get? (i + 1) = some (Tok.num (JsNum.fin 0)) →
    collapseOpsF fuel work ['*', '/'] j = none := by
  induction fuel with
  | zero => intro work i j _ _ _; rfl
  | succ f ih =>
    intro work i j hj h1 h2
    obtain ⟨hi, hgi⟩ := List.get?_eq_some.mp h1
    have hjlt : j < work.length := lt_of_le_of_lt hj hi
    unfold collapseOpsF
    rw [dif_pos hjlt]
    split
    · rename_i c heq
      by_cases hcin : c ∈ ['*', '/']
      · rw [if_pos hcin]
        by_cases hj0 : j = 0
        · rw [if_pos hj0]
        · rw [if_neg hj0]
          split
          · rename_i a b hLa hRb
            split
            · rfl
            · rename_i rr hap
              by_cases hji : j = i
              · exfalso
                subst hji
                have hc : c = '/' := Tok.op.inj (heq.symm.trans hgi)
                have hb : b = JsNum.fin 0 := by
                  rw [h2] at hRb
                  exact (Tok.num.inj (Option.some.inj hRb)).symm
                rw [hc, hb] at hap
                exact Option.noConfusion hap
              · by_cases hji1 : j + 1 = i
                · exfalso
                  rw [hji1, h1] at hRb
                  exact Tok.noConfusion (Option.some.inj hRb)
                · have hji2 : j + 1 < i := by omega
                  have hs1 : (work.take (j - 1) ++ Tok.num rr ::
                      work.drop (j + 2)).get? (i - 2) = some (Tok.op '/') := by
                    rw [get?_splice work (Tok.num rr) j (i - 2) (by omega)
                      (by omega) (by omega)]
                    rw [show i - 2 + 2 = i by omega]
                    exact h1
                  have hs2 : (work.take (j - 1) ++ Tok.num rr ::
                      work.drop (j + 2)).get? (i - 2 + 1) = some
                      (Tok.num (JsNum.fin 0)) := by
                    rw [get?_splice work (Tok.num rr) j (i - 2 + 1) (by omega)
                      (by omega) (by omega)]
                    rw [show i - 2 + 1 + 2 = i + 1 by omega]
                    exact h2
                  exact ih _ (i - 2) j (by omega) hs1 hs2
          · rfl
      · rw [if_neg hcin]
        have hji : j ≠ i := by
          intro hji
          subst hji
          exact hcin (by rw [Tok.op.inj (heq.symm.trans hgi)]; decide)
        exact ih work i (j + 1) (by omega) h1 h2
    · rename_i v heq
      have hji : j ≠ i := by
        intro hji
        subst hji
        exact Tok.noConfusion (heq.symm.trans hgi)
      exact ih work i (j + 1) (by omega) h1 h2

/-- **C5**: a division whose right operand is exactly zero makes the
evaluation abort with `null`: the `OPS` entry for `/` returns `null` on a
zero right operand, any `collapseOps` pass over a sequence containing a
`/` followed by a literal zero returns `null`, and in particular
`detectMathExpression "10/0"` is `null`. -/
theorem claim_C5 :
    (∀ a : JsNum, applyOp '/' a (JsNum.fin 0) = none) ∧
    (∀ (work : List Tok) (i : Nat),
      work.get? i = some (Tok.op '/') →
      work.get? (i + 1) = some (Tok.num (JsNum.fin 0)) →
      collapseOps work ['*', '/'] = none) ∧
    detectMathExpression (chars "10/0") = none := by
  refine ⟨fun a => rfl, ?_, ?_⟩
  · intro work i h1 h2
    exact collapseOpsF_div_zero _ work i 0 (Nat.zero_le i) h1 h2
  · have heval : evaluateTokens (tokenize (chars "10/0")) = none := by
      rw [show tokenize (chars "10/0") =
          [Tok.num (JsNum.fin 10), Tok.op '/', Tok.num (JsNum.fin 0)] from by decide]
      rw [evaluateTokens_noParens _ _ _ (by decide) (by decide)]
      decide
    have hbm : buildMatch (chars "10/0") 0 (chars "10/0") = none := by
      unfold buildMatch
      rw [if_neg (by decide), if_neg (by decide), heval]
    unfold detectMathExpression findAllExpressions
    rw [show execScanF (chars "10/0").length (chars "10/0") 0 =
        [(0, chars "10/0")] from by decide]
    simp [List.filterMap_cons, hbm]

theorem claim_C5_witness :
    [Tok.num (JsNum.fin 10), Tok.op '/', Tok.num (JsNum.fin 0)].get? 1 =
      some (Tok.op '/') ∧
    collapseOps [Tok.num (JsNum.fin 10), Tok.op '/', Tok.num (JsNum.fin 0)]
      ['*', '/'] = none :=
  ⟨by decide, claim_C5.2.1 _ 1 (by decide) (by decide)⟩

/-- **C6**: during tokenization a `-` is consumed as a unary sign starting
a number literal exactly when no token has been emitted yet or the most
recently emitted token is a string token other than `")"` (an operator or
an open parenthesis), and a next character exists and differs from `"("`;
otherwise it is emitted as a binary operator token.  Consequently
`evaluate(tokenize("-5+10")) = 5` and `evaluate(tokenize("10*-2")) =
-20`. -/
theorem claim_C6 :
    (∀ (toks : List Tok) (rest : List Char),
      minusIsUnary toks rest = true ↔
        ((toks = [] ∨ ∃ c, toks.getLast? = some (Tok.op c) ∧ c ≠ ')') ∧
         ∃ c2 t, rest = c2 :: t ∧ c2 ≠ '(')) ∧
    (∀ (fuel : Nat) (toks : List Tok) (rest : List Char),
      tokenizeGo (fuel + 1) ('-' :: rest) toks =
        if minusIsUnary toks rest then
          match scanNum rest false ['-'] with
          | none => []
          | some (numStr, rest2) =>
            tokenizeGo fuel rest2 (toks ++ [Tok.num (parseFloat numStr)])
        else tokenizeGo fuel rest (toks ++ [Tok.op '-'])) ∧
    evaluateTokens (tokenize (chars "-5+10")) = some (JsNum.fin 5) ∧
    evaluateTokens (tokenize (chars "10*-2")) = some (JsNum.fin (-20)) := by
  refine ⟨?_, ?_, ?_, ?_⟩
  · intro toks rest
    unfold minusIsUnary lastIsOpenish
    simp only [Bool.and_eq_true, Bool.or_eq_true, List.isEmpty_iff]
    constructor
    · intro h
      obtain ⟨h1, h2⟩ := h
      constructor
      · rcases h1 with h1 | h1
        · exact Or.inl h1
        · right
          split at h1
          · rename_i c heq
            exact ⟨c, heq, by simpa using h1⟩
          · cases h1
      · split at h2
        · rename_i c2 t
          exact ⟨c2, t, rfl, by simpa using h2⟩
        · cases h2
    · intro h
      obtain ⟨h1, c2, t, hrest, hc2⟩ := h
      subst hrest
      constructor
      · rcases h1 with h1 | ⟨c, hl, hc⟩
        · exact Or.inl h1
        · right
          rw [hl]
          simpa using hc
      · simpa using hc2
  · intro fuel toks rest
    conv_lhs => rw [tokenizeGo]
    rw [if_neg (by decide : ¬('-' = ' ' ∨ '-' = '\t'))]
    rw [if_neg (by decide : ¬('-' = '(' ∨ '-' = ')'))]
    rw [if_neg (by decide : ¬((isDigit09 '-' || '-' = '.') = true))]
    by_cases hm : minusIsUnary toks rest
    · rw [if_pos (by simp [hm] : ((('-' : Char) = '-' : Bool) &&
        minusIsUnary toks rest) = true)]
      rw [if_pos hm]
    · rw [if_neg (by simp [hm] : ¬((('-' : Char) = '-' : Bool) &&
        minusIsUnary toks rest) = true)]
      rw [if_neg hm]
      rw [if_pos (by decide : ('-' : Char) ∈ opsKeys ∨ ('-' : Char) ∈ operatorsKeys)]
      rfl
  · rw [show tokenize (chars "-5+10") =
        [Tok.num (JsNum.fin (-5)), Tok.op '+', Tok.num (JsNum.fin 10)] from by decide]
    rw [evaluateTokens_noParens _ _ _ (by decide) (by decide)]
    decide
  · rw [show tokenize (chars "10*-2") =
        [Tok.num (JsNum.fin 10), Tok.op '*', Tok.num (JsNum.fin (-2))] from by decide]
    rw [evaluateTokens_noParens _ _ _ (by decide) (by decide)]
    decide

/-- **C8**: a second `.` encountered while scanning a single number
literal makes `tokenize` return the empty token sequence at once,
discarding everything scanned so far: the literal scanner fails on a `.`
when one was already seen, the main loop turns that failure into `[]`,
and in particular `tokenize "1.2.3" = []` (and a prefix of valid tokens,
as in `"7+1.2.3"`, is discarded too). -/
theorem claim_C8 :
    (∀ (rest acc : List Char), scanNum ('.' :: rest) true acc = none) ∧
    (∀ (c : Char) (rest : List Char) (toks : List Tok) (fuel : Nat),
      (isDigit09 c || c = '.') = true →
      scanNum (c :: rest) false [] = none →
      tokenizeGo (fuel + 1) (c :: rest) toks = []) ∧
    tokenize (chars "1.2.3") = [] ∧
    tokenize (chars "7+1.2.3") = [] := by
  refine ⟨fun rest acc => rfl, ?_, by decide, by decide⟩
  intro c rest toks fuel hc hscan
  have hd : ('0' ≤ c ∧ c ≤ '9') ∨ c = '.' := by
    have h := hc
    simp only [isDigit09, Bool.or_eq_true, Bool.and_eq_true, decide_eq_true_eq] at h
    exact h
  have hne1 : ¬(c = ' ' ∨ c = '\t') := by
    rintro (rfl | rfl) <;>
      rcases hd with ⟨h1, h2⟩ | h3 <;> first | exact absurd h1 (by decide) | cases h3
  have hne2 : ¬(c = '(' ∨ c = ')') := by
    rintro (rfl | rfl) <;>
      rcases hd with ⟨h1, h2⟩ | h3 <;> first | exact absurd h1 (by decide) | cases h3
  conv_lhs => rw [tokenizeGo]
  rw [if_neg hne1, if_neg hne2, if_pos hc, hscan]

theorem claim_C8_witness :
    (isDigit09 '1' || '1' = '.') = true ∧
    scanNum ('1' :: chars ".2.3") false [] = none ∧
    tokenizeGo (4 + 1) ('1' :: chars ".2.3") [] = [] :=
  ⟨by decide, by decide,
    claim_C8.2.1 '1' (chars ".2.3") [] 4 (by decide) (by decide)⟩

/-!
## Termination (claim C9)

The evaluator cluster (`evaluateTokens`, `evalTail`, `resolveParens`) is
defined by well-founded recursion on the token-list length — exactly the
source's termination argument (the unary-minus recursion drops the first
token, inner parenthesis slices are strictly shorter, each splice of the
parenthesis loop strictly shortens the sequence).  For the fuelled loops,
the lemmas below show the result is independent of the fuel once it
reaches the stated measure (which the wrappers supply): every iteration
of `tokenize`'s scan and of the `exec` loop consumes at least one
character, and every iteration of `collapseOps` either advances the index
or shortens the sequence by two. -/

theorem tokenizeGo_stable :
    ∀ (n : Nat) (expr : List Char), expr.length ≤ n →
    ∀ (f g : Nat) (toks : List Tok), expr.length ≤ f → expr.length ≤ g →
    tokenizeGo f expr toks = tokenizeGo g expr toks := by
  intro n
  induction n with
  | zero =>
    intro expr hlen f g toks _ _
    have h0 : expr = [] := List.length_eq_zero.mp (Nat.le_zero.mp hlen)
    subst h0
    cases f <;> cases g <;> rfl
  | succ n ih =>
    intro expr hlen f g toks hf hg
    cases expr with
    | nil => cases f <;> cases g <;> rfl
    | cons c rest =>
      simp only [List.length_cons] at hlen hf hg
      obtain ⟨f', rfl⟩ : ∃ f', f = f' + 1 := ⟨f - 1, by omega⟩
      obtain ⟨g', rfl⟩ : ∃ g', g = g' + 1 := ⟨g - 1, by omega⟩
      conv_lhs => rw [tokenizeGo]
      conv_rhs => rw [tokenizeGo]
      by_cases h1 : c = ' ' ∨ c = '\t'
      · rw [if_pos h1, if_pos h1]
        exact ih rest (by omega) f' g' toks (by omega) (by omega)
      · rw [if_neg h1, if_neg h1]
        by_cases h2 : c = '(' ∨ c = ')'
        · rw [if_pos h2, if_pos h2]
          exact ih rest (by omega) f' g' _ (by omega) (by omega)
        · rw [if_neg h2, if_neg h2]
          by_cases h3 : (isDigit09 c || c = '.') = true
          · rw [if_pos h3, if_pos h3]
            cases hs : scanNum (c :: rest) false [] with
            | none => rfl
            | some pr =>
              obtain ⟨numStr, rest2⟩ := pr
              have hlt : rest2.length < (c :: rest).length := by
                have h3' : isDigit09 c = true ∨ c = '.' := by simpa using h3
                rcases h3' with hd | hd
                · have hcomma : ¬ c = ',' := by
                    intro hcc
                    rw [hcc] at hd
                    exact absurd hd (by decide)
                  rw [scanNum, if_neg hcomma, if_pos hd] at hs
                  exact Nat.lt_succ_of_le (scanNum_rest_length _ _ _ _ _ hs)
                · have hcc : c = '.' := by simpa using hd
                  subst hcc
                  rw [scanNum] at hs
                  rw [if_neg (by decide), if_neg (by decide), if_pos rfl] at hs
                  exact Nat.lt_succ_of_le (scanNum_rest_length _ _ _ _ _ hs)
              simp only [List.length_cons] at hlt
              exact ih rest2 (by omega) f' g' _ (by omega) (by omega)
          · rw [if_neg h3, if_neg h3]
            by_cases h4 : ((c = '-' : Bool) && minusIsUnary toks rest) = true
            · rw [if_pos h4, if_pos h4]
              cases hs : scanNum rest false ['-'] with
              | none => rfl
              | some pr =>
                obtain ⟨numStr, rest2⟩ := pr
                have hle : rest2.length ≤ rest.length :=
                  scanNum_rest_length _ _ _ _ _ hs
                exact ih rest2 (by omega) f' g' _ (by omega) (by omega)
            · rw [if_neg h4, if_neg h4]
              by_cases h5 : c ∈ opsKeys ∨ c ∈ operatorsKeys
              · rw [if_pos h5, if_pos h5]
                exact ih rest (by omega) f' g' _ (by omega) (by omega)
              · rw [if_neg h5, if_neg h5]
                exact ih rest (by omega) f' g' _ (by omega) (by omega)

theorem execScanF_stable :
    ∀ (n : Nat) (s : List Char), s.length ≤ n →
    ∀ (f g off : Nat), s.length ≤ f → s.length ≤ g →
    execScanF f s off = execScanF g s off := by
  intro n
  induction n with
  | zero =>
    intro s hlen f g off _ _
    have h0 : s = [] := List.length_eq_zero.mp (Nat.le_zero.mp hlen)
    subst h0
    cases f <;> cases g <;> rfl
  | succ n ih =>
    intro s hlen f g off hf hg
    cases s with
    | nil => cases f <;> cases g <;> rfl
    | cons c rest =>
      simp only [List.length_cons] at hlen hf hg
      obtain ⟨f', rfl⟩ : ∃ f', f = f' + 1 := ⟨f - 1, by omega⟩
      obtain ⟨g', rfl⟩ : ∃ g', g = g' + 1 := ⟨g - 1, by omega⟩
      cases htm : tryMatch (c :: rest) with
      | some r =>
        rw [execScanF_cons_match f' _ _ _ _ htm, execScanF_cons_match g' _ _ _ _ htm]
        have hspec := tryMatch_spec _ _ htm
        have hlt := hspec.2
        simp only [List.length_cons] at hlt
        congr 1
        exact ih r (by omega) f' g' _ (by omega) (by omega)
      | none =>
        rw [execScanF_cons_none f' _ _ _ htm, execScanF_cons_none g' _ _ _ htm]
        exact ih rest (by omega) f' g' _ (by omega) (by omega)

theorem collapseOpsF_stable :
    ∀ (n : Nat) (work : List Tok) (ops : List Char) (i : Nat),
    i ≤ work.length → 2 * work.length + 1 - i ≤ n →
    ∀ (f g : Nat), 2 * work.length + 1 - i ≤ f → 2 * work.length + 1 - i ≤ g →
    collapseOpsF f work ops i = collapseOpsF g work ops i := by
  intro n
  induction n with
  | zero =>
    intro work ops i hi hn f g _ _
    omega
  | succ n ih =>
    intro work ops i hi hn f g hf hg
    obtain ⟨f', rfl⟩ : ∃ f', f = f' + 1 := ⟨f - 1, by omega⟩
    obtain ⟨g', rfl⟩ : ∃ g', g = g' + 1 := ⟨g - 1, by omega⟩
    conv_lhs => rw [collapseOpsF]
    conv_rhs => rw [collapseOpsF]
    by_cases hlt : i < work.length
    · rw [dif_pos hlt, dif_pos hlt]
      split
      · rename_i c heq
        by_cases hcin : c ∈ ops
        · rw [if_pos hcin, if_pos hcin]
          by_cases hi0 : i = 0
          · rw [if_pos hi0, if_pos hi0]
          · rw [if_neg hi0, if_neg hi0]
            split
            · rename_i a b hLa hRb
              split
              · rfl
              · rename_i r hap
                have hi1 : i + 1 < work.length := (List.get?_eq_some.mp hRb).1
                have hlen2 : (work.take (i - 1) ++ Tok.num r ::
                    work.drop (i + 2)).length = work.length - 2 := by
                  rw [List.length_append, List.length_cons, List.length_drop,
                    List.length_take_of_le (by omega)]
                  omega
                apply ih _ ops i (by rw [hlen2]; omega) (by rw [hlen2]; omega)
                  f' g' (by rw [hlen2]; omega) (by rw [hlen2]; omega)
            · rfl
        · rw [if_neg hcin, if_neg hcin]
          exact ih work ops (i + 1) (by omega) (by omega) f' g' (by omega) (by omega)
      · exact ih work ops (i + 1) (by omega) (by omega) f' g' (by omega) (by omega)
    · rw [dif_neg hlt, dif_neg hlt]

/-- **C9**: all five operations terminate on every finite input.  The
evaluator cluster is total by well-founded recursion on the token-list
length (mirroring the source: the unary-minus recursion and parenthesis
slices are strictly shorter, every splice shortens the sequence), and each
fuelled loop computes the same result for any fuel at least the measure
its wrapper supplies: `tokenize`'s scan and the `exec` loop consume at
least one character per iteration, `collapseOps` advances its index or
shortens the sequence by two per iteration. -/
theorem claim_C9 :
    (∀ (f g : Nat) (expr : List Char) (toks : List Tok),
      expr.length ≤ f → expr.length ≤ g →
      tokenizeGo f expr toks = tokenizeGo g expr toks) ∧
    (∀ (f g : Nat) (s : List Char) (off : Nat),
      s.length ≤ f → s.length ≤ g →
      execScanF f s off = execScanF g s off) ∧
    (∀ (f g : Nat) (work : List Tok) (ops : List Char) (i : Nat),
      i ≤ work.length →
      2 * work.length + 1 - i ≤ f → 2 * work.length + 1 - i ≤ g →
      collapseOpsF f work ops i = collapseOpsF g work ops i) ∧
    (∀ ts : List Tok, ∃ r, evaluateTokens ts = r) ∧
    (∀ t : List Char, ∃ ms, findAllExpressions t = ms) ∧
    (∀ (t : List Char) (c : Int), ∃ m, detectMathExpressionAtCursor t c = m) := by
  refine ⟨?_, ?_, ?_, fun ts => ⟨_, rfl⟩, fun t => ⟨_, rfl⟩, fun t c => ⟨_, rfl⟩⟩
  · intro f g expr toks hf hg
    exact tokenizeGo_stable expr.length expr (le_refl _) f g toks hf hg
  · intro f g s off hf hg
    exact execScanF_stable s.length s (le_refl _) f g off hf hg
  · intro f g work ops i hi hf hg
    exact collapseOpsF_stable (2 * work.length + 1 - i) work ops i hi (le_refl _) f g hf hg

theorem claim_C9_witness :
    (chars "1+2").length ≤ 5 ∧ (chars "1+2").length ≤ 7 ∧
    tokenizeGo 5 (chars "1+2") [] = tokenizeGo 7 (chars "1+2") [] :=
  ⟨by decide, by decide, claim_C9.1 5 7 (chars "1+2") [] (by decide) (by decide)⟩

/-!
## Mutable-array model of the evaluator (claim C10)

The source's `evaluateTokens` receives a reference to a JavaScript array
and copies it (`let work = [...tokens]`, line 104) before any mutation;
`shift` and the `splice` inside `collapseOps` then act only on that copy
(and on the further fresh arrays built by `slice` and the parenthesis
loop's re-binding).  To verify this frame property the functions below
re-express the evaluator over an explicit store of arrays: a reference is
an index into the store, `[...tokens]` and `slice` allocate fresh cells,
`shift` and `splice` write the cell in place.  The outer `Option` is fuel
exhaustion only (`none`); a JavaScript `null` result is the inner
`none`. -/

/-- Read the array bound to reference `r` (out-of-range reads never occur
in the modelled runs). -/
def readArr (h : List (List Tok)) (r : Nat) : List Tok := (h.get? r).getD []

/-- Overwrite the array bound to reference `r` (in-place mutation). -/
def writeArr (h : List (List Tok)) (r : Nat) (v : List Tok) : List (List Tok) :=
  h.set r v

/-- Allocate a fresh array, returning its reference. -/
def allocArr (h : List (List Tok)) (v : List Tok) : Nat × List (List Tok) :=
  (h.length, h ++ [v])

/-- Heap-level `collapseOps` (detectMath.ts lines 78-94): the source
mutates its argument array in place via `splice` and returns it or
`null`; here each splice is a store write at the same reference `r`.
`some (true, h)` is a normal return, `some (false, h)` the source's
`null` (the mutations performed so far persist), `none` fuel
exhaustion. -/
def collapseOpsH : Nat → Nat → List Char → Nat → List (List Tok) →
    Option (Bool × List (List Tok))
  | 0, _, _, _, _ => none
  | fuel + 1, r, ops, i, h =>
    if i < (readArr h r).length then
      match (readArr h r).get? i with
      | some (Tok.op c) =>
        if c ∈ ops then
          if i = 0 then some (false, h)
          else
            match (readArr h r).get? (i - 1), (readArr h r).get? (i + 1) with
            | some (Tok.num a), some (Tok.num b) =>
              match applyOp c a b with
              | none => some (false, h)
              | some res =>
                collapseOpsH fuel r ops i
                  (writeArr h r ((readArr h r).take (i - 1) ++
                    Tok.num res :: (readArr h r).drop (i + 2)))
            | _, _ => some (false, h)
        else collapseOpsH fuel r ops (i + 1) h
      | _ => collapseOpsH fuel r ops (i + 1) h
    else some (true, h)

mutual

/-- Heap-level `evaluateTokens` (detectMath.ts lines 100-136): reads the
argument array through its reference, copies it into a fresh cell, and
performs the source's mutations (`shift`) on the copy only. -/
def evaluateTokensH : Nat → Nat → List (List Tok) →
    Option (Option JsNum × List (List Tok))
  | 0, _, _ => none
  | fuel + 1, r, h =>
    if (readArr h r).length = 0 then some (none, h)
    else if (readArr h r).length = 1 then
      some ((match (readArr h r).head? with
             | some (Tok.num v) => some v
             | _ => none), h)
    else
      match allocArr h (readArr h r) with
      | (wr, h1) =>
        match readArr h1 wr with
        | Tok.op '+' :: restW => evalTailH fuel wr (writeArr h1 wr restW)
        | Tok.op '-' :: restW =>
          if headIsParenOrNum restW then
            match evaluateTokensH fuel wr (writeArr h1 wr restW) with
            | none => none
            | some (res, h2) => some (res.map JsNum.neg, h2)
          else evalTailH fuel wr h1
        | _ => evalTailH fuel wr h1
termination_by structural fuel _ _ => fuel

/-- The tail of the heap-level evaluator: parenthesis resolution, the
leftover-`")"` check, the two in-place `collapseOps` passes on the
working array, and the final leading-number read. -/
def evalTailH : Nat → Nat → List (List Tok) →
    Option (Option JsNum × List (List Tok))
  | 0, _, _ => none
  | fuel + 1, r, h =>
    match parenLoopH fuel r h with
    | none => none
    | some (none, h1) => some (none, h1)
    | some (some r1, h1) =>
      if Tok.op ')' ∈ readArr h1 r1 then some (none, h1)
      else
        match collapseOpsH (2 * (readArr h1 r1).length + 1) r1 ['*', '/'] 0 h1 with
        | none => none
        | some (false, h2) => some (none, h2)
        | some (true, h2) =>
          match collapseOpsH (2 * (readArr h2 r1).length + 1) r1 ['+', '-'] 0 h2 with
          | none => none
          | some (false, h3) => some (none, h3)
          | some (true, h3) =>
            some ((match (readArr h3 r1).head? with
                   | some (Tok.num v) => some v
                   | _ => none), h3)
termination_by structural fuel _ _ => fuel

/-- The heap-level parenthesis loop (detectMath.ts lines 115-127):
`slice` allocates the inner sub-array, the recursive evaluation runs on
that fresh reference, and `work = [...slice, inner, ...slice]` allocates
a new array and re-binds the local variable (no mutation of the previous
array).  Returns the reference of the final working array, or the inner
`none` for the source's `null`. -/
def parenLoopH : Nat → Nat → List (List Tok) →
    Option (Option Nat × List (List Tok))
  | 0, _, _ => none
  | fuel + 1, r, h =>
    if Tok.op '(' ∈ readArr h r then
      match findParen (readArr h r) 0 none with
      | none => some (none, h)
      | some (o, c) =>
        if c ≤ o then some (none, h)
        else
          match allocArr h (((readArr h r).take c).drop (o + 1)) with
          | (sr, h1) =>
            match evaluateTokensH fuel sr h1 with
            | none => none
            | some (none, h2) => some (none, h2)
            | some (some v, h2) =>
              match allocArr h2 ((readArr h2 r).take o ++
                  Tok.num v :: (readArr h2 r).drop (c + 1)) with
              | (wr2, h3) => parenLoopH fuel wr2 h3
    else some (some r, h)
termination_by structural fuel _ _ => fuel

end

/-- `collapseOpsH` only writes its own reference: every other store cell is
unchanged, and the store keeps its length. -/
theorem collapseOpsH_frame : ∀ fuel r ops i h b h',
    collapseOpsH fuel r ops i h = some (b, h') →
    h'.length = h.length ∧ ∀ j, j ≠ r → h'.get? j = h.get? j := by
  intro fuel
  induction fuel with
  | zero => intro r ops i h b h' hc; simp [collapseOpsH] at hc
  | succ fuel ih =>
    intro r ops i h b h' hc
    rw [collapseOpsH] at hc
    split at hc
    · split at hc
      · split at hc
        · split at hc
          · cases hc; exact ⟨rfl, fun j _ => rfl⟩
          · split at hc
            · split at hc
              · cases hc; exact ⟨rfl, fun j _ => rfl⟩
              · obtain ⟨hl, hp⟩ := ih r ops i _ b h' hc
                refine ⟨by rw [hl]; simp [writeArr, List.length_set], ?_⟩
                intro j hj
                rw [hp j hj]
                simp only [writeArr]
                exact List.get?_set_ne _ _ (fun hrj => hj hrj.symm)
            · cases hc; exact ⟨rfl, fun j _ => rfl⟩
        · exact ih r ops (i + 1) h b h' hc
      · exact ih r ops (i + 1) h b h' hc
    · cases hc; exact ⟨rfl, fun j _ => rfl⟩

/-- The frame property of the heap-level evaluator cluster, by induction on
fuel: a successful run only grows the store; `evaluateTokensH` preserves
every pre-existing cell, `evalTailH` preserves every pre-existing cell
other than its own working reference, and `parenLoopH` preserves every
pre-existing cell and returns either its argument reference or a fresh
one. -/
theorem heapFrame : ∀ fuel : Nat,
    (∀ r h res h', evaluateTokensH fuel r h = some (res, h') →
      h.length ≤ h'.length ∧ ∀ j, j < h.length → h'.get? j = h.get? j) ∧
    (∀ r h res h', evalTailH fuel r h = some (res, h') →
      h.length ≤ h'.length ∧ ∀ j, j < h.length → j ≠ r → h'.get? j = h.get? j) ∧
    (∀ r h res h', parenLoopH fuel r h = some (res, h') →
      h.length ≤ h'.length ∧ (∀ j, j < h.length → h'.get? j = h.get? j) ∧
        ∀ r2, res = some r2 → r2 = r ∨ h.length ≤ r2) := by
  intro fuel
  induction fuel with
  | zero =>
    refine ⟨?_, ?_, ?_⟩ <;> intro r h res h' hc <;>
      simp [evaluateTokensH, evalTailH, parenLoopH] at hc
  | succ fuel ih =>
    obtain ⟨ihE, ihT, ihL⟩ := ih
    refine ⟨?_, ?_, ?_⟩
    · intro r h res h' hc
      rw [evaluateTokensH] at hc
      split at hc
      · cases hc; exact ⟨Nat.le_refl _, fun j _ => rfl⟩
      · split at hc
        · cases hc; exact ⟨Nat.le_refl _, fun j _ => rfl⟩
        · simp only [allocArr] at hc
          split at hc
          · -- leading "+": shift then evalTailH on the fresh copy
            obtain ⟨hlen, hpres⟩ := ihT _ _ _ _ hc
            simp only [writeArr, List.length_set, List.length_append,
              List.length_singleton] at hlen hpres
            refine ⟨by omega, ?_⟩
            intro j hj
            rw [hpres j (by omega) (by omega)]
            rw [List.get?_set_ne _ _ (by omega)]
            exact List.get?_append hj
          · -- leading "-": negate the recursive evaluation of the rest
            split at hc
            · split at hc
              · exact Option.noConfusion hc
              · rename_i res0 h2 hE
                cases hc
                obtain ⟨hlen, hpres⟩ := ihE _ _ _ _ hE
                simp only [writeArr, List.length_set, List.length_append,
                  List.length_singleton] at hlen hpres
                refine ⟨by omega, ?_⟩
                intro j hj
                rw [hpres j (by omega)]
                rw [List.get?_set_ne _ _ (by omega)]
                exact List.get?_append hj
            · obtain ⟨hlen, hpres⟩ := ihT _ _ _ _ hc
              have hl1 : (h ++ [readArr h r]).length = h.length + 1 := by simp
              refine ⟨by omega, ?_⟩
              intro j hj
              rw [hpres j (by omega) (by omega)]
              exact List.get?_append hj
          · obtain ⟨hlen, hpres⟩ := ihT _ _ _ _ hc
            have hl0 : (h ++ [readArr h r]).length = h.length + 1 := by simp
            refine ⟨by omega, ?_⟩
            intro j hj
            rw [hpres j (by omega) (by omega)]
            exact List.get?_append hj
    · intro r h res h' hc
      rw [evalTailH] at hc
      split at hc
      · exact Option.noConfusion hc
      · rename_i h1 hL
        cases hc
        obtain ⟨hl1, hp1, -⟩ := ihL _ _ _ _ hL
        exact ⟨hl1, fun j hj _ => hp1 j hj⟩
      · rename_i r1 h1 hL
        obtain ⟨hl1, hp1, hr1⟩ := ihL _ _ _ _ hL
        have hne : ∀ j, j < h.length → j ≠ r → j ≠ r1 := by
          intro j hj hjr
          rcases hr1 r1 rfl with he | he
          · rw [he]; exact hjr
          · omega
        split at hc
        · cases hc
          exact ⟨hl1, fun j hj _ => hp1 j hj⟩
        · split at hc
          · exact Option.noConfusion hc
          · rename_i h2 hC1
            cases hc
            obtain ⟨hcl1, hcp1⟩ := collapseOpsH_frame _ _ _ _ _ _ _ hC1
            refine ⟨by omega, ?_⟩
            intro j hj hjr
            rw [hcp1 j (hne j hj hjr), hp1 j hj]
          · rename_i h2 hC1
            obtain ⟨hcl1, hcp1⟩ := collapseOpsH_frame _ _ _ _ _ _ _ hC1
            split at hc
            · exact Option.noConfusion hc
            · rename_i h3 hC2
              cases hc
              obtain ⟨hcl2, hcp2⟩ := collapseOpsH_frame _ _ _ _ _ _ _ hC2
              refine ⟨by omega, ?_⟩
              intro j hj hjr
              rw [hcp2 j (hne j hj hjr), hcp1 j (hne j hj hjr), hp1 j hj]
            · rename_i h3 hC2
              cases hc
              obtain ⟨hcl2, hcp2⟩ := collapseOpsH_frame _ _ _ _ _ _ _ hC2
              refine ⟨by omega, ?_⟩
              intro j hj hjr
              rw [hcp2 j (hne j hj hjr), hcp1 j (hne j hj hjr), hp1 j hj]
    · intro r h res h' hc
      rw [parenLoopH] at hc
      split at hc
      · split at hc
        · cases hc
          exact ⟨Nat.le_refl _, fun j _ => rfl, fun r2 hr2 => Option.noConfusion hr2⟩
        · split at hc
          · cases hc
            exact ⟨Nat.le_refl _, fun j _ => rfl, fun r2 hr2 => Option.noConfusion hr2⟩
          · simp only [allocArr] at hc
            split at hc
            · exact Option.noConfusion hc
            · rename_i h2 hE
              cases hc
              obtain ⟨hlen, hpres⟩ := ihE _ _ _ _ hE
              simp only [List.length_append, List.length_singleton] at hlen hpres
              refine ⟨by omega, ?_, fun r2 hr2 => Option.noConfusion hr2⟩
              intro j hj
              rw [hpres j (by omega)]
              exact List.get?_append hj
            · rename_i v h2 hE
              obtain ⟨hlenE, hpresE⟩ := ihE _ _ _ _ hE
              obtain ⟨hlenL, hpresL, hrL⟩ := ihL _ _ _ _ hc
              simp only [List.length_append, List.length_singleton]
                at hlenE hpresE hlenL hpresL hrL
              refine ⟨by omega, ?_, ?_⟩
              · intro j hj
                rw [hpresL j (by omega)]
                rw [List.get?_append (by omega)]
                rw [hpresE j (by omega)]
                exact List.get?_append hj
              · intro r2 hr2
                rcases hrL r2 hr2 with he | he
                · right; omega
                · right; omega
      · cases hc
        refine ⟨Nat.le_refl _, fun j _ => rfl, ?_⟩
        intro r2 hr2
        cases hr2
        exact Or.inl rfl

/-- **C10** (frame effect): `evaluateTokens(ts)` leaves `ts` unchanged.  In
the store-passing model of the source's mutable arrays, a successful run of
`evaluateTokensH` on a reference `r` into the store returns a store in which
the array bound to `r` is element-wise identical to its value before the
call: the source copies `tokens` into a fresh working array before any
`shift`, and every `splice` (inside `collapseOps`) and array re-binding in
the parenthesis loop acts only on copies. -/
theorem claim_C10 (fuel r : Nat) (h : List (List Tok)) (res : Option JsNum)
    (h' : List (List Tok)) (hr : r < h.length)
    (hrun : evaluateTokensH fuel r h = some (res, h')) :
    readArr h' r = readArr h r := by
  obtain ⟨-, hpres⟩ := (heapFrame fuel).1 r h res h' hrun
  unfold readArr
  rw [hpres r hr]

theorem claim_C10_witness :
    0 < ([[Tok.num (JsNum.fin 1), Tok.op '+', Tok.num (JsNum.fin 2)]]
        : List (List Tok)).length ∧
    evaluateTokensH 10 0 [[Tok.num (JsNum.fin 1), Tok.op '+', Tok.num (JsNum.fin 2)]] =
      some (some (JsNum.fin 3),
        [[Tok.num (JsNum.fin 1), Tok.op '+', Tok.num (JsNum.fin 2)],
         [Tok.num (JsNum.fin 3)]]) ∧
    readArr [[Tok.num (JsNum.fin 1), Tok.op '+', Tok.num (JsNum.fin 2)],
        [Tok.num (JsNum.fin 3)]] 0 =
      readArr [[Tok.num (JsNum.fin 1), Tok.op '+', Tok.num (JsNum.fin 2)]] 0 :=
  ⟨by decide, by decide,
    claim_C10 10 0 _ (some (JsNum.fin 3)) _ (by decide) (by decide)⟩

end DetectMath
